import Mathlib

/-!
Verification development for the livnium-engine permutation core.

The development shallowly embeds the Python sources of the repository:

* core/rotations.py : the 24 proper cube rotations as signed axis
  permutation matrices with determinant +1;
* core/coords.py    : the cubic lattice index/coordinate bijection;
* core/engine.py    : the permutation engine (global and local rotation
  application, canonical serialization, the non-mutating audit, perturb);
* energy/energies.py, explorer/anneal_local.py, explorer/recovery.py :
  the energy functions, the simulated-annealing driver and the basin
  recovery experiment.

Modelling conventions:

* Python ints are Int / Nat; lists are List; dicts keyed by insertion
  order are association lists; exceptions are Except with an error type
  distinguishing ValueError (InvalidArgument) from AssertionError
  (InvariantViolation).
* The Mersenne-Twister generator (Python random.Random, library code
  outside this repository) is modelled by an abstract draw stream
  Nat -> Nat; every derived draw (randrange, choice, randint, random)
  consumes one stream value and is reduced into its documented range.
  Quantification over seeds becomes quantification over streams.
* The SHA-256 digest is modelled by the canonical byte serialization it
  digests: every claim about hash equality factors through equality of
  the serialized bytes.
* Python float literals and float arithmetic are modelled exactly over
  the rationals (for energies) and the reals (for temperatures).
-/

namespace Livnium

/-! ### core/rotations.py -/

/-- Integer 3-vector, mirroring the tuple[int, int, int] of the source. -/
abbrev Vec3 := ℤ × ℤ × ℤ

/-- Row-major 3x3 integer matrix, mirroring Matrix3 of core/rotations.py. -/
abbrev Matrix3 := Vec3 × Vec3 × Vec3

/-- Determinant of a 3x3 integer matrix (det3 in core/rotations.py). -/
def det3 (m : Matrix3) : ℤ :=
  m.1.1 * (m.2.1.2.1 * m.2.2.2.2 - m.2.1.2.2 * m.2.2.2.1)
    - m.1.2.1 * (m.2.1.1 * m.2.2.2.2 - m.2.1.2.2 * m.2.2.1)
    + m.1.2.2 * (m.2.1.1 * m.2.2.2.1 - m.2.1.2.1 * m.2.2.1)

/-- Dot product of two integer 3-vectors. -/
def dot3 (a b : Vec3) : ℤ := a.1 * b.1 + a.2.1 * b.2.1 + a.2.2 * b.2.2

/-- Columns of a 3x3 matrix, used to spell out the matrix product. -/
def colX (m : Matrix3) : Vec3 := (m.1.1, m.2.1.1, m.2.2.1)

def colY (m : Matrix3) : Vec3 := (m.1.2.1, m.2.1.2.1, m.2.2.2.1)

def colZ (m : Matrix3) : Vec3 := (m.1.2.2, m.2.1.2.2, m.2.2.2.2)

/-- Integer 3x3 matrix product (mat_mul in core/rotations.py): the entry in
row r and column c is the sum over k of a[r][k] * b[k][c]. -/
def mat_mul (a b : Matrix3) : Matrix3 :=
  ((dot3 a.1 (colX b), dot3 a.1 (colY b), dot3 a.1 (colZ b)),
   (dot3 a.2.1 (colX b), dot3 a.2.1 (colY b), dot3 a.2.1 (colZ b)),
   (dot3 a.2.2 (colX b), dot3 a.2.2 (colY b), dot3 a.2.2 (colZ b)))

/-- Matrix-vector product (mat_vec in core/rotations.py). -/
def mat_vec (m : Matrix3) (v : Vec3) : Vec3 :=
  (dot3 m.1 v, dot3 m.2.1 v, dot3 m.2.2 v)

/-- Matrix transpose (transpose in core/rotations.py). -/
def transpose (m : Matrix3) : Matrix3 :=
  ((m.1.1, m.2.1.1, m.2.2.1),
   (m.1.2.1, m.2.1.2.1, m.2.2.2.1),
   (m.1.2.2, m.2.1.2.2, m.2.2.2.2))

/-- The identity matrix, used to state the rotation-group properties. -/
def idMat : Matrix3 := ((1, 0, 0), (0, 1, 0), (0, 0, 1))

/-- The basis axes enumerated by generate_proper_rotations. -/
def axesList : List Vec3 := [(1, 0, 0), (0, 1, 0), (0, 0, 1)]

/-- All ordered triples of distinct elements of a duplicate-free list, in
the order produced by itertools.permutations: first components in list
order, then the remaining elements in list order. -/
def permutations3 {α : Type} [DecidableEq α] (l : List α) : List (α × α × α) :=
  l.flatMap fun a =>
    (l.erase a).flatMap fun b =>
      ((l.erase a).erase b).map fun c => (a, b, c)

/-- Sign choices enumerated by itertools.product([1, -1], repeat=3). -/
def signsList : List ℤ := [1, -1]

/-- Scalar multiple of a vector: the row s * perm[r] of the source. -/
def smulVec (s : ℤ) (v : Vec3) : Vec3 := (s * v.1, s * v.2.1, s * v.2.2)

/-- Strict lexicographic order on integer triples (Python tuple order). -/
def vecLt (a b : Vec3) : Prop :=
  a.1 < b.1 ∨ (a.1 = b.1 ∧ (a.2.1 < b.2.1 ∨ (a.2.1 = b.2.1 ∧ a.2.2 < b.2.2)))

instance : DecidableRel vecLt := fun a b => by unfold vecLt; infer_instance

/-- Non-strict lexicographic order on rows of a matrix, comparing the three
rows in sequence as Python compares nested tuples. -/
def matLe (a b : Matrix3) : Prop :=
  vecLt a.1 b.1 ∨ (a.1 = b.1 ∧
    (vecLt a.2.1 b.2.1 ∨ (a.2.1 = b.2.1 ∧
      (vecLt a.2.2 b.2.2 ∨ a.2.2 = b.2.2))))

instance : DecidableRel matLe := fun a b => by unfold matLe; infer_instance

/-- Strict lexicographic order on matrices, for stating that the generated
rotation list is strictly increasing. -/
def matLt (a b : Matrix3) : Prop := matLe a b ∧ a ≠ b

instance : DecidableRel matLt := fun a b => by unfold matLt; infer_instance

/-- Generation of the 24 proper cube rotations (generate_proper_rotations in
core/rotations.py): enumerate signed axis permutations in the itertools
order, keep determinant +1, deduplicate preserving order (dict.fromkeys; a
no-op here since the kept matrices are distinct), and sort lexicographically
over rows (list.sort). -/
def generate_proper_rotations : List Matrix3 :=
  let cands : List Matrix3 :=
    (permutations3 axesList).flatMap fun p =>
      signsList.flatMap fun s1 =>
        signsList.flatMap fun s2 =>
          signsList.map fun s3 =>
            (smulVec s1 p.1, smulVec s2 p.2.1, smulVec s3 p.2.2)
  let props := cands.filter fun m => det3 m = 1
  let uniq := props.dedup
  uniq.insertionSort matLe

/-- The module-level ROTATIONS list of core/rotations.py. -/
def ROTATIONS : List Matrix3 := generate_proper_rotations

/-- The ROTATION_INDEX dictionary of core/rotations.py, as the position of
a matrix in ROTATIONS (total function; meaningful on members). -/
def ROTATION_INDEX (m : Matrix3) : ℕ := ROTATIONS.indexOf m

/-- Inverse rotation lookup (inverse_rotation_index in core/rotations.py):
the inverse of an orthonormal matrix is its transpose, looked up back to an
id.  Out-of-range ids, which raise IndexError in the source, read a junk
default; every caller validates the id first. -/
def inverse_rotation_index (op : ℕ) : ℕ :=
  ROTATION_INDEX (transpose (ROTATIONS.getD op idMat))

/-! ### core/coords.py -/

/-- The list of integers produced by Python range(a, b). -/
def rangeZ (a b : ℤ) : List ℤ :=
  (List.range (b - a).toNat).map fun i : ℕ => a + (i : ℤ)

/-- The list of integers from -k to k (range(-k, k + 1) in build_coords). -/
def cubeRange (k : ℕ) : List ℤ := rangeZ (-(k : ℤ)) ((k : ℤ) + 1)

/-- Lattice coordinate enumeration of build_coords in core/coords.py: all
triples with components in [-k, k], k = N // 2, enumerated lexicographically
by x, then y, then z.  The subsequent sort of the source uses exactly this
lexicographic key, so it leaves this already-sorted enumeration unchanged
(index_to_coord_sorted below). -/
def index_to_coord (N : ℕ) : List Vec3 :=
  let k := N / 2
  (cubeRange k).flatMap fun x =>
    (cubeRange k).flatMap fun y =>
      (cubeRange k).map fun z => (x, y, z)

/-- Reverse lookup coord_to_index of core/coords.py: the dictionary sending
each enumerated coordinate to its position.  Lookup of a key that is absent,
a KeyError in the source, is none. -/
def coord_to_index (N : ℕ) (c : Vec3) : Option ℕ :=
  if c ∈ index_to_coord N then some ((index_to_coord N).indexOf c) else none

/-- Membership in the cube lattice of half-width k, the key domain of
coord_to_index. -/
def inCube (k : ℕ) (c : Vec3) : Prop :=
  |c.1| ≤ (k : ℤ) ∧ |c.2.1| ≤ (k : ℤ) ∧ |c.2.2| ≤ (k : ℤ)

instance (k : ℕ) (c : Vec3) : Decidable (inCube k c) := by
  unfold inCube; infer_instance

/-! ### core/engine.py : state and serialization -/

/-- Error taxonomy: invalidArgument models ValueError (InvalidArgument in
the specification, also covering InvalidConfig), invariantViolation models
AssertionError (InvariantViolation). -/
inductive Err where
  | invalidArgument : Err
  | invariantViolation : Err
deriving DecidableEq

/-- The last_action record: ("global", op_id) or ("local", op_id, center,
radius).  The tag local is spelled loc because local is a Lean keyword. -/
inductive LastAction where
  | glob (op : ℕ) : LastAction
  | loc (op : ℕ) (center : Vec3) (radius : ℤ) : LastAction
deriving DecidableEq

/-- Engine state (the mutable fields of AxionGridCore).  The coords and
rot_index_map fields of the dataclass are initialized once from N and never
reassigned, so they are inlined here as functions of N (index_to_coord,
coord_to_index, rot_index_map). -/
structure EngineState where
  N : ℕ
  grid : List ℕ
  last_op_id : Option ℕ
  last_action : Option LastAction
deriving DecidableEq

/-- Initial engine state of AxionGridCore.__init__: identity grid, no last
action. -/
def construct (N : ℕ) : EngineState :=
  { N := N, grid := List.range (N ^ 3), last_op_id := none, last_action := none }

/-- Engine construction including the build_coords validation, which raises
for N even or below 3 (ValueError "N must be odd and >= 3"). -/
def build_engine (N : ℕ) : Except Err EngineState :=
  if N < 3 ∨ N % 2 ≠ 1 then .error .invalidArgument else .ok (construct N)

/-- Little-endian 4-byte serialization of one unsigned 32-bit value, as
produced by struct.pack code I. -/
def le32 (v : ℕ) : List ℕ :=
  [v % 256, v / 256 % 256, v / 65536 % 256, v / 16777216 % 256]

/-- Canonical byte serialization _canonical_bytes of core/engine.py: the
little-endian uint32 array [N] + grid. -/
def canonical_bytes (s : EngineState) : List ℕ := (s.N :: s.grid).flatMap le32

/-- Canonical state fingerprint (hash in core/engine.py).  The SHA-256
digest is modelled by the byte string it digests: the digest is a pure
deterministic function of these bytes, and every claim-level use of the
hash is an equality that factors through equality of the bytes. -/
def hashB (s : EngineState) : List ℕ := canonical_bytes s

/-! ### Random draws (python random module, modelled abstractly) -/

/-- Abstract entropy stream standing for a seeded random.Random instance. -/
def Rng := ℕ → ℕ

/-- Stream after consuming one draw. -/
def rngNext (g : Rng) : Rng := fun i => g (i + 1)

/-- Draw of randrange(n) / _randbelow(n): a value in [0, n). -/
def randrange (g : Rng) (n : ℕ) : ℕ × Rng := (g 0 % n, rngNext g)

/-- Draw of choice([1, 2]), used for the local-move radius. -/
def choice12 (g : Rng) : ℤ × Rng := (if g 0 % 2 = 0 then 1 else 2, rngNext g)

/-- Draw of randint(lo, hi): uniform on [lo, hi]; an empty range (hi < lo)
raises ValueError in the source. -/
def randint (g : Rng) (lo hi : ℤ) : Except Err (ℤ × Rng) :=
  if hi < lo then .error .invalidArgument
  else .ok (lo + ((g 0 % (hi - lo + 1).toNat : ℕ) : ℤ), rngNext g)

/-- Draw of random(): a 53-bit dyadic rational in [0, 1), exactly as
CPython produces getrandbits(53) / 2 ** 53. -/
def randfloat (g : Rng) : ℚ × Rng :=
  (((g 0 % 2 ^ 53 : ℕ) : ℚ) / 2 ^ 53, rngNext g)

/-- One Fisher-Yates swap x[i], x[j] = x[j], x[i] on the grid list. -/
def swapL (l : List ℕ) (i j : ℕ) : List ℕ :=
  (l.set i (l.getD j 0)).set j (l.getD i 0)

/-- The loop of random.shuffle: for i from n-1 down to 1, draw
j = _randbelow(i + 1) and swap positions i and j. -/
def shuffleAux (g : Rng) (l : List ℕ) : ℕ → List ℕ × Rng
  | 0 => (l, g)
  | i + 1 => shuffleAux (rngNext g) (swapL l (i + 1) (g 0 % (i + 2))) i

/-- random.shuffle of a list, driven by the abstract stream. -/
def shuffle (g : Rng) (l : List ℕ) : List ℕ × Rng := shuffleAux g l (l.length - 1)

/-- randomize(seed) of core/engine.py: replace the grid by a shuffled
permutation and clear the last action. -/
def randomize (s : EngineState) (g : Rng) : EngineState :=
  { s with grid := (shuffle g s.grid).1, last_op_id := none, last_action := none }

/-! ### core/engine.py : global and local moves -/

/-- Precomputed rotation index map of _build_rot_index_maps: entry old_i
holds the index of the rotated coordinate of old_i.  The source asserts the
lookup never leaves the domain; rot_map_lookup_mem below proves it, so the
junk default of getD is never read for op below 24. -/
def rot_index_map (N : ℕ) (op : ℕ) : List ℕ :=
  (index_to_coord N).map fun c =>
    (coord_to_index N (mat_vec (ROTATIONS.getD op idMat) c)).getD 0

/-- Scatter loop of apply: new = [0] * len(old); for old_i, tok in
enumerate(old): new[mp[old_i]] = tok. -/
def applyScatter (mp old : List ℕ) : List ℕ :=
  (List.range old.length).foldl
    (fun new i => new.set (mp.getD i 0) (old.getD i 0))
    (List.replicate old.length 0)

/-- Global move apply(op_id) of core/engine.py. -/
def apply (s : EngineState) (op : ℕ) : Except Err EngineState :=
  if op < 24 then
    .ok { s with grid := applyScatter (rot_index_map s.N op) s.grid,
                 last_op_id := some op,
                 last_action := some (.glob op) }
  else .error .invalidArgument

/-- inverse_op of core/engine.py: group inverse id, after validating the
op id. -/
def inverse_op (op : ℕ) : Except Err ℕ :=
  if op < 24 then .ok (inverse_rotation_index op) else .error .invalidArgument

/-- inverse_local of core/engine.py: the inverse op id with the same center
and radius. -/
def inverse_local (op : ℕ) (center : Vec3) (radius : ℤ) :
    Except Err (ℕ × Vec3 × ℤ) :=
  (inverse_op op).map fun i => (i, center, radius)

/-- Region enumeration of _local_index_mapping: all coordinates in the
coordinate cube around the center, with the (never-firing) Chebyshev guard
of the source kept in place. -/
def region_coords (c : Vec3) (r : ℤ) : List Vec3 :=
  (rangeZ (c.1 - r) (c.1 + r + 1)).flatMap fun x =>
    (rangeZ (c.2.1 - r) (c.2.1 + r + 1)).flatMap fun y =>
      (rangeZ (c.2.2 - r) (c.2.2 + r + 1)).flatMap fun z =>
        if max |x - c.1| (max |y - c.2.1| |z - c.2.2|) > r then []
        else [(x, y, z)]

/-- Index mapping of _local_index_mapping: for each region coordinate, the
pair (old index, index of center + m * (coordinate - center)).  The source
stores these pairs in a dict keyed by the old index; the keys are distinct
on every validated call, so the dict is this association list. -/
def local_mapping (N : ℕ) (op : ℕ) (c : Vec3) (r : ℤ) : List (ℕ × ℕ) :=
  (region_coords c r).map fun oc =>
    let m := ROTATIONS.getD op idMat
    let rel : Vec3 := (oc.1 - c.1, oc.2.1 - c.2.1, oc.2.2 - c.2.2)
    let rr := mat_vec m rel
    let nc : Vec3 := (c.1 + rr.1, c.2.1 + rr.2.1, c.2.2 + rr.2.2)
    ((coord_to_index N oc).getD 0, (coord_to_index N nc).getD 0)

/-- Scatter loop of apply_local: new = list(old); for old_i, new_i in
mapping.items(): new[new_i] = old[old_i]. -/
def applyLocalScatter (mapping : List (ℕ × ℕ)) (old : List ℕ) : List ℕ :=
  mapping.foldl (fun new p => new.set p.2 (old.getD p.1 0)) old

/-- Local move apply_local(op_id, center, radius) of core/engine.py, with
its validation cascade: op id range, center a lattice coordinate, positive
radius, center bound, region bound; then the mapping size assertion (the
dict size is the number of distinct old indices). -/
def apply_local (s : EngineState) (op : ℕ) (center : Vec3) (radius : ℤ) :
    Except Err EngineState :=
  if ¬ op < 24 then .error .invalidArgument
  else if ¬ center ∈ index_to_coord s.N then .error .invalidArgument
  else if radius < 1 then .error .invalidArgument
  else
    let k : ℤ := (s.N / 2 : ℕ)
    if max |center.1| (max |center.2.1| |center.2.2|) > k then
      .error .invalidArgument
    else if |center.1| + radius > k ∨ |center.2.1| + radius > k ∨
        |center.2.2| + radius > k then
      .error .invalidArgument
    else
      let mapping := local_mapping s.N op center radius
      if ((mapping.map Prod.fst).dedup.length : ℤ) ≠ (2 * radius + 1) ^ 3 then
        .error .invariantViolation
      else
        .ok { s with grid := applyLocalScatter mapping s.grid,
                     last_op_id := none,
                     last_action := some (.loc op center radius) }

/-! ### core/engine.py : audit -/

/-- Check 1 of audit (_audit_permutation): grid length, token uniqueness
(set size, modelled by dedup length), token range (set equality with
range(N**3), modelled by Finset equality). -/
def audit_permutation (s : EngineState) : Except Err Unit :=
  let n3 := s.N ^ 3
  if s.grid.length ≠ n3 then .error .invariantViolation
  else if s.grid.dedup.length ≠ n3 then .error .invariantViolation
  else if s.grid.toFinset ≠ Finset.range n3 then .error .invariantViolation
  else .ok ()

/-- Validation of one global rotation index map inside _audit_rot_maps:
length, range of entries, and bijectivity via the distinct-entry count. -/
def check_map_bijection (n3 : ℕ) (mp : List ℕ) : Except Err Unit :=
  if mp.length ≠ n3 then .error .invariantViolation
  else if mp.any (fun j => n3 ≤ j) then .error .invariantViolation
  else if mp.dedup.length ≠ n3 then .error .invariantViolation
  else .ok ()

/-- Check 2 of audit (_audit_rot_maps): with no last action validate all 24
global maps, with a global last action validate that one map, with a local
last action recompute the region mapping and validate it is a bijection on
its own domain and image. -/
def audit_rot_maps (s : EngineState) : Except Err Unit :=
  let n3 := s.N ^ 3
  match s.last_action with
  | none =>
    (List.range 24).forM fun op => check_map_bijection n3 (rot_index_map s.N op)
  | some (.glob op) => check_map_bijection n3 (rot_index_map s.N op)
  | some (.loc op c r) =>
    let mapping := local_mapping s.N op c r
    let dom := mapping.map Prod.fst
    let img := mapping.map Prod.snd
    if dom.any (fun i => n3 ≤ i) then .error .invariantViolation
    else if img.any (fun j => n3 ≤ j) then .error .invariantViolation
    else if dom.dedup.length ≠ dom.length then .error .invariantViolation
    else if img.dedup.length ≠ img.length then .error .invariantViolation
    else if dom.toFinset ≠ img.toFinset then .error .invariantViolation
    else .ok ()

/-- Check 3 of audit (_audit_inverse_roundtrip): if a last action is
recorded, re-apply it, apply its inverse, and require the canonical bytes
to be restored exactly.  The mutated intermediate states are local to the
check; the caller audit restores its snapshot regardless. -/
def audit_inverse_roundtrip (s : EngineState) : Except Err Unit :=
  match s.last_action with
  | none => .ok ()
  | some (.glob op) => do
    let snap := canonical_bytes s
    let inv ← inverse_op op
    let s1 ← apply s op
    let s2 ← apply s1 inv
    if canonical_bytes s2 ≠ snap then .error .invariantViolation else .ok ()
  | some (.loc op c r) => do
    let snap := canonical_bytes s
    let p ← inverse_local op c r
    let s1 ← apply_local s op c r
    let s2 ← apply_local s1 p.1 p.2.1 p.2.2
    if canonical_bytes s2 ≠ snap then .error .invariantViolation else .ok ()

/-- audit of core/engine.py: snapshot grid, last_op_id, last_action and the
hash, run the three checks, restore the snapshot unconditionally (the
finally block), and re-verify the restored hash; a mismatch there is the
fatal AssertionError of the source.  The result is the restored state
together with the propagated exception, if any. -/
def audit (s : EngineState) : EngineState × Option Err :=
  let beforeGrid := s.grid
  let beforeLast := s.last_op_id
  let beforeAction := s.last_action
  let beforeHash := hashB s
  let check : Except Err Unit := do
    audit_permutation s
    audit_rot_maps s
    audit_inverse_roundtrip s
  let restored : EngineState :=
    { N := s.N, grid := beforeGrid,
      last_op_id := beforeLast, last_action := beforeAction }
  if hashB restored ≠ beforeHash then (restored, some .invariantViolation)
  else
    match check with
    | .ok _ => (restored, none)
    | .error e => (restored, some e)

/-- audit as used by callers that propagate its exception. -/
def auditE (s : EngineState) : Except Err EngineState :=
  match audit s with
  | (s1, none) => .ok s1
  | (_, some e) => .error e

/-! ### core/engine.py : perturb -/

/-- One iteration of the perturb loop of LivniumEngineCore.perturb: draw
op_id, radius and center, apply the local move, audit. -/
def perturbStep (s : EngineState) (g : Rng) : Except Err (EngineState × Rng) := do
  let k := s.N / 2
  let (op, g1) := randrange g 24
  let (radius, g2) := choice12 g1
  let lo : ℤ := -(k : ℤ) + radius
  let hi : ℤ := (k : ℤ) - radius
  let (cx, g3) ← randint g2 lo hi
  let (cy, g4) ← randint g3 lo hi
  let (cz, g5) ← randint g4 lo hi
  let s1 ← apply_local s op (cx, cy, cz) radius
  let s2 ← auditE s1
  .ok (s2, g5)

/-- perturb(steps, seed) of core/engine.py: steps audited random local
moves.  The steps argument is a natural number, so the negative-steps
ValueError branch of the source is unreachable here. -/
def perturb (s : EngineState) (steps : ℕ) (g : Rng) : Except Err EngineState :=
  match steps with
  | 0 => .ok s
  | n + 1 => do
    let (s1, g1) ← perturbStep s g
    perturb s1 n g1

/-! ### Audit restoration (helper lemmas shared by several claims) -/

/-- The finally block of audit restores the snapshot on every exit path, so
the state component of audit is always the input state. -/
theorem audit_fst (s : EngineState) : (audit s).1 = s := by
  cases s
  unfold audit
  dsimp only
  split
  · rfl
  · split <;> rfl

/-- The restored hash always matches the pre-check hash, so the internal
fatal mismatch branch of the finally block never fires, and the outcome of
audit is the outcome of its three checks. -/
theorem audit_snd (s : EngineState) :
    (audit s).2 = match (do
      audit_permutation s
      audit_rot_maps s
      audit_inverse_roundtrip s : Except Err Unit) with
      | .ok _ => none
      | .error e => some e := by
  cases s
  unfold audit
  dsimp only
  rw [if_neg (by simp)]
  split <;> rfl

/-- C1: for every engine state (in particular every reachable one, with any
N, any grid and any recorded LastAction), audit leaves the canonical hash,
the grid, last_op_id and last_action exactly as they were before the call,
both when the checks pass and when they raise: the state component of audit
is the input state on every exit path. -/
theorem claim_audit_never_mutates (s : EngineState) :
    (audit s).1 = s ∧
    (audit s).1.grid = s.grid ∧
    (audit s).1.last_op_id = s.last_op_id ∧
    (audit s).1.last_action = s.last_action ∧
    hashB (audit s).1 = hashB s := by
  refine ⟨audit_fst s, ?_, ?_, ?_, ?_⟩ <;> rw [audit_fst s]

/-- Helper for C9: a list of length n with a repeated entry has fewer than
n distinct entries. -/
theorem dedup_length_ne_of_dup {l : List ℕ} {n i j : ℕ} (hlen : l.length = n)
    (hij : i ≠ j) (hi : i < l.length) (hj : j < l.length)
    (heq : l.getD i 0 = l.getD j 0) : l.dedup.length ≠ n := by
  intro hdl
  have hsub : l.dedup = l :=
    (List.dedup_sublist l).eq_of_length (by rw [hdl, hlen])
  have hnd : l.Nodup := List.dedup_eq_self.mp hsub
  rw [List.getD_eq_getElem l 0 hi, List.getD_eq_getElem l 0 hj] at heq
  exact hij ((hnd.getElem_inj_iff).mp heq)

/-- C9: audit rejects a corrupted grid: if the grid has the expected length
N ** 3 but holds the same token at two distinct indices, audit raises
InvariantViolation (the token-uniqueness check of _audit_permutation), and
the engine state after the raise is exactly the corrupted state before the
call. -/
theorem claim_audit_detects_duplicate (s : EngineState) (i j : ℕ)
    (hlen : s.grid.length = s.N ^ 3) (hij : i ≠ j)
    (hi : i < s.grid.length) (hj : j < s.grid.length)
    (heq : s.grid.getD i 0 = s.grid.getD j 0) :
    (audit s).2 = some Err.invariantViolation ∧ (audit s).1 = s := by
  refine ⟨?_, audit_fst s⟩
  rw [audit_snd s]
  have hperm : audit_permutation s = .error .invariantViolation := by
    unfold audit_permutation
    rw [if_neg (by simp [hlen]),
      if_pos (dedup_length_ne_of_dup hlen hij hi hj heq)]
  rw [hperm]
  rfl

/-- Witness for C9 at a concrete corrupted state: N = 3, a grid of the
right length 27 holding token 0 at indices 0 and 1. -/
theorem claim_audit_detects_duplicate_witness :
    (audit ⟨3, List.replicate 27 0, none, none⟩).2
      = some Err.invariantViolation ∧
    (audit ⟨3, List.replicate 27 0, none, none⟩).1
      = ⟨3, List.replicate 27 0, none, none⟩ :=
  claim_audit_detects_duplicate ⟨3, List.replicate 27 0, none, none⟩ 0 1
    (by decide) (by decide) (by decide) (by decide) (by decide)

/-! ### invariants/rotation_group.py and the rotation-group claim -/

/-- The six signed coordinate axes. -/
def signedAxes : List Vec3 :=
  [(1, 0, 0), (-1, 0, 0), (0, 1, 0), (0, -1, 0), (0, 0, 1), (0, 0, -1)]

/-- Index of the axis a signed axis vector lies on. -/
def axisIdx (v : Vec3) : ℕ := if v.1 ≠ 0 then 0 else if v.2.1 ≠ 0 then 1 else 2

/-- A signed axis permutation matrix: every row is a signed axis and the
three rows lie on three distinct axes (hence also one nonzero entry per
column). -/
def isSignedAxisPerm (m : Matrix3) : Prop :=
  m.1 ∈ signedAxes ∧ m.2.1 ∈ signedAxes ∧ m.2.2 ∈ signedAxes ∧
    axisIdx m.1 ≠ axisIdx m.2.1 ∧ axisIdx m.1 ≠ axisIdx m.2.2 ∧
    axisIdx m.2.1 ≠ axisIdx m.2.2

instance (m : Matrix3) : Decidable (isSignedAxisPerm m) := by
  unfold isSignedAxisPerm; infer_instance

/-- Composition table of build_compose_table in invariants/rotation_group.py:
entry (a, b) is the id of the product matrix ROTATIONS[a] * ROTATIONS[b]
(apply b, then a).  The KeyError branch of the source never fires by the
closure property proved below. -/
def build_compose_table : List (List ℕ) :=
  (List.range 24).map fun a =>
    (List.range 24).map fun b =>
      ROTATION_INDEX (mat_mul (ROTATIONS.getD a idMat) (ROTATIONS.getD b idMat))

/-- C6: the generation procedure yields exactly 24 distinct signed-axis
permutation matrices of determinant +1, listed in strictly increasing
lexicographic order; the inverse lookup is an involution on [0, 24); the
product of a rotation with its transpose is the identity matrix; and the
product of any two rotations is again a rotation (closure), so every entry
of the composition table is a valid id. -/
theorem claim_rotation_group_structure :
    generate_proper_rotations.length = 24 ∧
    generate_proper_rotations.Nodup ∧
    (∀ m ∈ generate_proper_rotations, det3 m = 1 ∧ isSignedAxisPerm m) ∧
    generate_proper_rotations.Pairwise matLt ∧
    (∀ op < 24, inverse_rotation_index op < 24 ∧
      inverse_rotation_index (inverse_rotation_index op) = op) ∧
    (∀ m ∈ ROTATIONS, mat_mul m (transpose m) = idMat ∧
      mat_mul (transpose m) m = idMat) ∧
    (∀ a ∈ ROTATIONS, ∀ b ∈ ROTATIONS, mat_mul a b ∈ ROTATIONS) ∧
    (∀ a ∈ List.range 24, ∀ b ∈ List.range 24,
      (build_compose_table.getD a []).getD b 24 < 24 ∧
      ROTATIONS.getD ((build_compose_table.getD a []).getD b 24) idMat
        = mat_mul (ROTATIONS.getD a idMat) (ROTATIONS.getD b idMat)) := by
  exact ⟨by decide, by decide, by decide, by decide, by decide, by decide,
    by decide, by decide⟩

/-! ### Lattice enumeration lemmas -/

theorem mem_rangeZ {a b x : ℤ} : x ∈ rangeZ a b ↔ a ≤ x ∧ x < b := by
  simp only [rangeZ, List.mem_map, List.mem_range]
  constructor
  · rintro ⟨i, hi, rfl⟩
    constructor <;> omega
  · intro h
    exact ⟨(x - a).toNat, by omega, by omega⟩

theorem nodup_rangeZ (a b : ℤ) : (rangeZ a b).Nodup :=
  (List.nodup_range _).map fun i j h => by omega

/-! ### Generic lemmas about List.indexOf under a lawful BEq instance -/

theorem indexOf_lt_of_mem {α : Type} [BEq α] [LawfulBEq α] {a : α} {l : List α}
    (h : a ∈ l) : List.indexOf a l < l.length := by
  induction l with
  | nil => cases h
  | cons b t ih =>
    rw [List.indexOf_cons]
    rcases eq_or_ne b a with rfl | hne
    · simp
    · have hb : (b == a) = false := by simpa using hne
      have hmem : a ∈ t := by
        rcases List.mem_cons.mp h with rfl | ht
        · exact absurd rfl hne
        · exact ht
      simp only [hb, cond_false, List.length_cons]
      exact Nat.succ_lt_succ (ih hmem)

theorem getD_indexOf {α : Type} [BEq α] [LawfulBEq α] {a : α} {l : List α}
    (h : a ∈ l) (d : α) : l.getD (List.indexOf a l) d = a := by
  induction l with
  | nil => cases h
  | cons b t ih =>
    rw [List.indexOf_cons]
    rcases eq_or_ne b a with rfl | hne
    · simp
    · have hb : (b == a) = false := by simpa using hne
      have hmem : a ∈ t := by
        rcases List.mem_cons.mp h with rfl | ht
        · exact absurd rfl hne
        · exact ht
      simp only [hb, cond_false]
      exact ih hmem

theorem getD_mem {α : Type} {l : List α} {i : ℕ} (h : i < l.length) (d : α) :
    l.getD i d ∈ l := by
  rw [List.getD_eq_getElem _ _ h]
  exact List.getElem_mem h

theorem indexOf_getD {α : Type} [BEq α] [LawfulBEq α] {l : List α}
    (hnd : l.Nodup) {i : ℕ} (h : i < l.length) (d : α) :
    List.indexOf (l.getD i d) l = i := by
  induction l generalizing i with
  | nil => simp at h
  | cons b t ih =>
    match i with
    | 0 => simp [List.indexOf_cons]
    | i + 1 =>
      have hlt : i < t.length := by simpa using h
      have hbm : b ∉ t := (List.nodup_cons.mp hnd).1
      have hne : (b == t.getD i d) = false := by
        simp only [beq_eq_false_iff_ne, ne_eq]
        intro hbe
        exact hbm (hbe ▸ getD_mem hlt d)
      simp only [List.getD_cons_succ, List.indexOf_cons, hne, cond_false]
      rw [ih (List.nodup_cons.mp hnd).2 hlt]

theorem indexOf_inj2 {α : Type} [BEq α] [LawfulBEq α] {a b : α} {l : List α}
    (ha : a ∈ l) (hb : b ∈ l) (h : List.indexOf a l = List.indexOf b l) :
    a = b := by
  have hgd := getD_indexOf ha a
  rw [h, getD_indexOf hb a] at hgd
  exact hgd.symm

theorem mem_cubeRange {k : ℕ} {x : ℤ} : x ∈ cubeRange k ↔ |x| ≤ (k : ℤ) := by
  rw [cubeRange, mem_rangeZ, abs_le]
  omega

theorem nodup_cubeRange (k : ℕ) : (cubeRange k).Nodup := nodup_rangeZ _ _

theorem length_cubeRange (k : ℕ) : (cubeRange k).length = 2 * k + 1 := by
  simp only [cubeRange, rangeZ, List.length_map, List.length_range]
  omega

theorem length_flatMap_const {α β : Type} (l : List α) (f : α → List β) (m : ℕ)
    (h : ∀ a ∈ l, (f a).length = m) : (l.flatMap f).length = l.length * m := by
  induction l with
  | nil => simp
  | cons a t ih =>
    simp only [List.flatMap_cons, List.length_append, List.length_cons,
      h a (by simp), ih fun x hx => h x (by simp [hx])]
    ring

theorem length_index_to_coord {N : ℕ} (hN : N % 2 = 1) :
    (index_to_coord N).length = N ^ 3 := by
  have hk : 2 * (N / 2) + 1 = N := by omega
  unfold index_to_coord
  rw [length_flatMap_const _ _ (N * N) fun a _ => ?_, length_cubeRange, hk]
  · ring
  · rw [length_flatMap_const _ _ N fun b _ => ?_, length_cubeRange, hk]
    rw [List.length_map, length_cubeRange, hk]

theorem mem_index_to_coord {N : ℕ} {c : Vec3} :
    c ∈ index_to_coord N ↔ inCube (N / 2) c := by
  obtain ⟨x, y, z⟩ := c
  simp only [index_to_coord, List.mem_flatMap, List.mem_map, mem_cubeRange,
    inCube]
  constructor
  · rintro ⟨x1, hx, y1, hy, z1, hz, h⟩
    obtain ⟨rfl, rfl, rfl⟩ : x1 = x ∧ y1 = y ∧ z1 = z := by
      simpa [Prod.ext_iff] using h
    exact ⟨hx, hy, hz⟩
  · rintro ⟨hx, hy, hz⟩
    exact ⟨x, hx, y, hy, z, hz, rfl⟩

theorem nodup_index_to_coord (N : ℕ) : (index_to_coord N).Nodup := by
  unfold index_to_coord
  refine List.nodup_flatMap.mpr ⟨fun x _ => ?_, ?_⟩
  · refine List.nodup_flatMap.mpr ⟨fun y _ => ?_, ?_⟩
    · exact (nodup_cubeRange _).map fun z1 z2 h => by
        simpa [Prod.ext_iff] using h
    · refine (nodup_cubeRange _).imp ?_
      intro y1 y2 hne c hc1 hc2
      have h1 : c.2.1 = y1 := by
        obtain ⟨z, _, rfl⟩ := List.mem_map.mp hc1; rfl
      have h2 : c.2.1 = y2 := by
        obtain ⟨z, _, rfl⟩ := List.mem_map.mp hc2; rfl
      exact hne (h1 ▸ h2 ▸ rfl)
  · refine (nodup_cubeRange _).imp ?_
    intro x1 x2 hne c hc1 hc2
    have h1 : c.1 = x1 := by
      obtain ⟨y, _, hy⟩ := List.mem_flatMap.mp hc1
      obtain ⟨z, _, rfl⟩ := List.mem_map.mp hy; rfl
    have h2 : c.1 = x2 := by
      obtain ⟨y, _, hy⟩ := List.mem_flatMap.mp hc2
      obtain ⟨z, _, rfl⟩ := List.mem_map.mp hy; rfl
    exact hne (h1 ▸ h2 ▸ rfl)

/-! ### Coordinate lookup lemmas -/

/-- Shorthand for the coordinate at a lattice index. -/
def i2c (N : ℕ) (i : ℕ) : Vec3 := (index_to_coord N).getD i (0, 0, 0)

/-- Shorthand for the lattice index of an in-cube coordinate. -/
def c2i (N : ℕ) (c : Vec3) : ℕ := (index_to_coord N).indexOf c

theorem coord_to_index_of_inCube {N : ℕ} {c : Vec3} (h : inCube (N / 2) c) :
    coord_to_index N c = some (c2i N c) := by
  rw [coord_to_index, if_pos (mem_index_to_coord.mpr h)]; rfl

theorem coord_to_index_of_not_inCube {N : ℕ} {c : Vec3}
    (h : ¬ inCube (N / 2) c) : coord_to_index N c = none := by
  rw [coord_to_index, if_neg fun hm => h (mem_index_to_coord.mp hm)]

theorem coord_to_index_getD {N : ℕ} {c : Vec3} (h : inCube (N / 2) c) :
    (coord_to_index N c).getD 0 = c2i N c := by
  rw [coord_to_index_of_inCube h]; rfl

theorem c2i_lt {N : ℕ} {c : Vec3} (hN : N % 2 = 1) (h : inCube (N / 2) c) :
    c2i N c < N ^ 3 := by
  rw [← length_index_to_coord hN]
  exact indexOf_lt_of_mem (mem_index_to_coord.mpr h)

theorem i2c_c2i {N : ℕ} {c : Vec3} (h : inCube (N / 2) c) :
    i2c N (c2i N c) = c :=
  getD_indexOf (mem_index_to_coord.mpr h) _

theorem i2c_inCube {N : ℕ} {i : ℕ} (hN : N % 2 = 1) (h : i < N ^ 3) :
    inCube (N / 2) (i2c N i) := by
  have hlt : i < (index_to_coord N).length := by
    rw [length_index_to_coord hN]; exact h
  exact mem_index_to_coord.mp (getD_mem hlt _)

theorem c2i_i2c {N : ℕ} {i : ℕ} (hN : N % 2 = 1) (h : i < N ^ 3) :
    c2i N (i2c N i) = i := by
  have hlt : i < (index_to_coord N).length := by
    rw [length_index_to_coord hN]; exact h
  exact indexOf_getD (nodup_index_to_coord N) hlt _

theorem c2i_inj {N : ℕ} {c1 c2 : Vec3} (h1 : inCube (N / 2) c1)
    (h2 : inCube (N / 2) c2) (h : c2i N c1 = c2i N c2) : c1 = c2 :=
  indexOf_inj2 (mem_index_to_coord.mpr h1) (mem_index_to_coord.mpr h2) h

/-! ### Rotation matrix facts, by evaluation over the 24 matrices -/

theorem rots_signed : ∀ m ∈ ROTATIONS, isSignedAxisPerm m := by decide

theorem rots_getD_mem : ∀ op < 24, ROTATIONS.getD op idMat ∈ ROTATIONS := by
  have h : ∀ op ∈ List.range 24, ROTATIONS.getD op idMat ∈ ROTATIONS := by
    decide
  exact fun op hop => h op (List.mem_range.mpr hop)

theorem inv_rot_lt : ∀ op < 24, inverse_rotation_index op < 24 := by decide

theorem rots_inv_transpose : ∀ op < 24,
    ROTATIONS.getD (inverse_rotation_index op) idMat
      = transpose (ROTATIONS.getD op idMat) := by decide

theorem rots_transpose_mul : ∀ m ∈ ROTATIONS, mat_mul (transpose m) m = idMat := by
  decide

theorem rots_mul_transpose : ∀ m ∈ ROTATIONS, mat_mul m (transpose m) = idMat := by
  decide

theorem mat_vec_mat_mul (a b : Matrix3) (v : Vec3) :
    mat_vec (mat_mul a b) v = mat_vec a (mat_vec b v) := by
  obtain ⟨⟨a11, a12, a13⟩, ⟨a21, a22, a23⟩, a31, a32, a33⟩ := a
  obtain ⟨⟨b11, b12, b13⟩, ⟨b21, b22, b23⟩, b31, b32, b33⟩ := b
  obtain ⟨x, y, z⟩ := v
  simp only [mat_mul, mat_vec, dot3, colX, colY, colZ, Prod.mk.injEq]
  refine ⟨by ring, by ring, by ring⟩

theorem mat_vec_id (v : Vec3) : mat_vec idMat v = v := by
  obtain ⟨x, y, z⟩ := v
  simp [mat_vec, idMat, dot3]

theorem mat_vec_transpose_cancel {m : Matrix3} (hm : m ∈ ROTATIONS) (v : Vec3) :
    mat_vec (transpose m) (mat_vec m v) = v := by
  rw [← mat_vec_mat_mul, rots_transpose_mul m hm, mat_vec_id]

theorem mat_vec_cancel_transpose {m : Matrix3} (hm : m ∈ ROTATIONS) (v : Vec3) :
    mat_vec m (mat_vec (transpose m) v) = v := by
  rw [← mat_vec_mat_mul, rots_mul_transpose m hm, mat_vec_id]

theorem mat_vec_inj {m : Matrix3} (hm : m ∈ ROTATIONS) {v w : Vec3}
    (h : mat_vec m v = mat_vec m w) : v = w := by
  have h2 := congrArg (mat_vec (transpose m)) h
  rwa [mat_vec_transpose_cancel hm, mat_vec_transpose_cancel hm] at h2

theorem dot3_signedAxis_bound {row v : Vec3} {b : ℤ} (h : row ∈ signedAxes)
    (h1 : |v.1| ≤ b) (h2 : |v.2.1| ≤ b) (h3 : |v.2.2| ≤ b) :
    |dot3 row v| ≤ b := by
  obtain ⟨x, y, z⟩ := v
  simp only [abs_le] at h1 h2 h3 ⊢
  fin_cases h <;> simp [dot3] <;> omega

/-- A signed axis permutation shrinks no Chebyshev bound. -/
theorem mat_vec_bound {m : Matrix3} (hm : isSignedAxisPerm m) {v : Vec3}
    {b : ℤ} (h1 : |v.1| ≤ b) (h2 : |v.2.1| ≤ b) (h3 : |v.2.2| ≤ b) :
    |(mat_vec m v).1| ≤ b ∧ |(mat_vec m v).2.1| ≤ b ∧
      |(mat_vec m v).2.2| ≤ b := by
  obtain ⟨hr1, hr2, hr3, _, _, _⟩ := hm
  exact ⟨dot3_signedAxis_bound hr1 h1 h2 h3,
    dot3_signedAxis_bound hr2 h1 h2 h3,
    dot3_signedAxis_bound hr3 h1 h2 h3⟩

/-- A signed axis permutation maps the cube of half-width k into itself. -/
theorem inCube_mat_vec {k : ℕ} {m : Matrix3} (hm : isSignedAxisPerm m)
    {v : Vec3} (hv : inCube k v) : inCube k (mat_vec m v) := by
  obtain ⟨hv1, hv2, hv3⟩ := hv
  exact mat_vec_bound hm hv1 hv2 hv3

/-! ### Global rotation index maps are bijections -/

theorem length_rot_index_map {N : ℕ} (hN : N % 2 = 1) (op : ℕ) :
    (rot_index_map N op).length = N ^ 3 := by
  rw [rot_index_map, List.length_map, length_index_to_coord hN]

/-- The coord_to_index lookup inside _build_rot_index_maps never leaves the
domain: rotated in-cube coordinates are in-cube (the AssertionError branch
of the source is unreachable for a valid op id). -/
theorem rot_map_lookup_mem {N : ℕ} {op : ℕ} (hop : op < 24) {c : Vec3}
    (hc : inCube (N / 2) c) :
    inCube (N / 2) (mat_vec (ROTATIONS.getD op idMat) c) :=
  inCube_mat_vec (rots_signed _ (rots_getD_mem op hop)) hc

theorem rot_index_map_getD {N op i : ℕ} (hN : N % 2 = 1) (hop : op < 24)
    (hi : i < N ^ 3) :
    (rot_index_map N op).getD i 0
      = c2i N (mat_vec (ROTATIONS.getD op idMat) (i2c N i)) := by
  have hlt : i < (index_to_coord N).length := by
    rw [length_index_to_coord hN]; exact hi
  rw [rot_index_map, List.getD_eq_getElem _ _ (by simpa using hlt),
    List.getElem_map]
  rw [show (index_to_coord N)[i] = i2c N i from
    (List.getD_eq_getElem _ _ hlt).symm]
  exact coord_to_index_getD (rot_map_lookup_mem hop (i2c_inCube hN hi))

theorem rot_index_map_getD_lt {N op i : ℕ} (hN : N % 2 = 1) (hop : op < 24)
    (hi : i < N ^ 3) : (rot_index_map N op).getD i 0 < N ^ 3 := by
  rw [rot_index_map_getD hN hop hi]
  exact c2i_lt hN (rot_map_lookup_mem hop (i2c_inCube hN hi))

theorem rot_index_map_entries_lt {N op : ℕ} (hN : N % 2 = 1) (hop : op < 24) :
    ∀ v ∈ rot_index_map N op, v < N ^ 3 := by
  intro v hv
  obtain ⟨c, hc, rfl⟩ := List.mem_map.mp hv
  have hcc : inCube (N / 2) c := mem_index_to_coord.mp hc
  rw [coord_to_index_getD (rot_map_lookup_mem hop hcc)]
  exact c2i_lt hN (rot_map_lookup_mem hop hcc)

theorem nodup_rot_index_map {N op : ℕ} (hop : op < 24) :
    (rot_index_map N op).Nodup := by
  have hmem := rots_getD_mem op hop
  refine (nodup_index_to_coord N).map_on ?_
  intro c1 h1 c2 h2 heq
  have hc1 : inCube (N / 2) c1 := mem_index_to_coord.mp h1
  have hc2 : inCube (N / 2) c2 := mem_index_to_coord.mp h2
  rw [coord_to_index_getD (rot_map_lookup_mem hop hc1),
    coord_to_index_getD (rot_map_lookup_mem hop hc2)] at heq
  exact mat_vec_inj hmem
    (c2i_inj (rot_map_lookup_mem hop hc1) (rot_map_lookup_mem hop hc2) heq)

/-- Pigeonhole: a duplicate-free list of n values below n contains every
value below n. -/
theorem mem_of_perm_values {mp : List ℕ} {n : ℕ} (hlen : mp.length = n)
    (hnd : mp.Nodup) (hval : ∀ v ∈ mp, v < n) {j : ℕ} (hj : j < n) :
    j ∈ mp := by
  have hsub : mp.toFinset ⊆ Finset.range n := fun v hv =>
    Finset.mem_range.mpr (hval v (List.mem_toFinset.mp hv))
  have hcard : mp.toFinset.card = n := by
    rw [List.toFinset_card_of_nodup hnd, hlen]
  have heq : mp.toFinset = Finset.range n :=
    Finset.eq_of_subset_of_card_le hsub (by rw [hcard, Finset.card_range])
  exact List.mem_toFinset.mp (heq ▸ Finset.mem_range.mpr hj)

/-! ### Scatter loops: pointwise characterization -/

theorem getD_set_self {l : List ℕ} {i : ℕ} (h : i < l.length) (v : ℕ) :
    (l.set i v).getD i 0 = v := by
  rw [List.getD_eq_getElem _ _ (by simpa using h)]
  exact List.getElem_set_self _

theorem getD_set_ne {l : List ℕ} {i j : ℕ} (h : i ≠ j) (v : ℕ) :
    (l.set i v).getD j 0 = l.getD j 0 := by
  by_cases hj : j < l.length
  · rw [List.getD_eq_getElem _ _ (by simpa using hj),
      List.getD_eq_getElem _ _ hj]
    exact List.getElem_set_ne h _
  · rw [List.getD_eq_default _ _ (by simpa using Nat.le_of_not_lt hj),
      List.getD_eq_default _ _ (Nat.le_of_not_lt hj)]

theorem foldl_set_length {α : Type} (idxs : List α) (tgt val : α → ℕ)
    (acc : List ℕ) :
    (idxs.foldl (fun a i => a.set (tgt i) (val i)) acc).length = acc.length := by
  induction idxs generalizing acc with
  | nil => rfl
  | cons i rest ih => rw [List.foldl_cons, ih, List.length_set]

/-- Pointwise value of a scatter loop with pairwise distinct target
positions: position j holds the value scattered to it if there is one, and
the accumulator value otherwise. -/
theorem foldl_set_getD {α : Type} (idxs : List α) (tgt val : α → ℕ)
    (acc : List ℕ) (hnd : (idxs.map tgt).Nodup)
    (hlt : ∀ i ∈ idxs, tgt i < acc.length) (j : ℕ) :
    (idxs.foldl (fun a i => a.set (tgt i) (val i)) acc).getD j 0
      = match idxs.find? (fun i => tgt i == j) with
        | some i => val i
        | none => acc.getD j 0 := by
  induction idxs generalizing acc with
  | nil => simp
  | cons i rest ih =>
    rw [List.map_cons] at hnd
    have hhd : tgt i ∉ rest.map tgt := (List.nodup_cons.mp hnd).1
    have htl : (rest.map tgt).Nodup := (List.nodup_cons.mp hnd).2
    rw [List.foldl_cons]
    rcases eq_or_ne (tgt i) j with hij | hij
    · rw [List.find?_cons_of_pos _ (by simpa using hij)]
      have hnone : rest.find? (fun x => tgt x == j) = none :=
        List.find?_eq_none.mpr fun x hx => by
          simp only [beq_iff_eq]
          intro hxj
          exact hhd (by simpa [hij ▸ hxj] using List.mem_map_of_mem tgt hx)
      rw [ih _ htl
        (fun x hx => by rw [List.length_set]; exact hlt x (by simp [hx])), hnone]
      rw [← hij]
      exact getD_set_self (hlt i (by simp)) _
    · rw [List.find?_cons_of_neg _ (by simpa using hij)]
      rw [ih _ htl
        (fun x hx => by rw [List.length_set]; exact hlt x (by simp [hx]))]
      rcases hfind : rest.find? (fun x => tgt x == j) with _ | x
      · exact getD_set_ne hij _
      · rfl

/-- When a list has duplicate-free targets, find? locates a given element
by its target. -/
theorem find?_by_tgt {α : Type} [DecidableEq α] {idxs : List α} {tgt : α → ℕ}
    (hnd : (idxs.map tgt).Nodup) {x : α} (hx : x ∈ idxs) :
    idxs.find? (fun i => tgt i == tgt x) = some x := by
  induction idxs with
  | nil => cases hx
  | cons i rest ih =>
    rw [List.map_cons] at hnd
    have hhd : tgt i ∉ rest.map tgt := (List.nodup_cons.mp hnd).1
    have htl : (rest.map tgt).Nodup := (List.nodup_cons.mp hnd).2
    rcases eq_or_ne i x with rfl | hne
    · exact List.find?_cons_of_pos _ (by simp)
    · have hxr : x ∈ rest := by
        rcases List.mem_cons.mp hx with rfl | h
        · exact absurd rfl hne
        · exact h
      have hti : tgt i ≠ tgt x := fun h =>
        hhd (by simpa [← h] using List.mem_map_of_mem tgt hxr)
      rw [List.find?_cons_of_neg _ (by simpa using hti)]
      exact ih htl hxr

/-- When no element has the requested target, the scatter leaves position j
at its accumulator value. -/
theorem foldl_set_getD_of_not_mem {α : Type} (idxs : List α)
    (tgt val : α → ℕ) (acc : List ℕ) (hnd : (idxs.map tgt).Nodup)
    (hlt : ∀ i ∈ idxs, tgt i < acc.length) {j : ℕ}
    (hj : ∀ i ∈ idxs, tgt i ≠ j) :
    (idxs.foldl (fun a i => a.set (tgt i) (val i)) acc).getD j 0
      = acc.getD j 0 := by
  rw [foldl_set_getD idxs tgt val acc hnd hlt j,
    List.find?_eq_none.mpr fun x hx => by simpa using hj x hx]

/-! ### The permutation invariant -/

/-- The permutation invariant of the specification: the grid is a
permutation of the tokens 0 .. n-1 (right length, no duplicates, no
out-of-range values). -/
def isPermGrid (n : ℕ) (g : List ℕ) : Prop :=
  g.length = n ∧ g.Nodup ∧ ∀ v ∈ g, v < n

instance (n : ℕ) (g : List ℕ) : Decidable (isPermGrid n g) := by
  unfold isPermGrid; infer_instance

theorem isPermGrid_range (n : ℕ) : isPermGrid n (List.range n) :=
  ⟨List.length_range n, List.nodup_range _, fun _ hv => List.mem_range.mp hv⟩

/-- Rearrangement: a list of the right length whose entries read another
permutation grid through a self-injection of [0, n) is again a permutation
grid. -/
theorem isPermGrid_reindex {n : ℕ} {old res : List ℕ} (σ : ℕ → ℕ)
    (hperm : isPermGrid n old) (hlen : res.length = n)
    (hσlt : ∀ m, m < n → σ m < n)
    (hσinj : ∀ m1, m1 < n → ∀ m2, m2 < n → σ m1 = σ m2 → m1 = m2)
    (hres : ∀ m, m < n → res.getD m 0 = old.getD (σ m) 0) :
    isPermGrid n res := by
  obtain ⟨holen, hond, hoval⟩ := hperm
  refine ⟨hlen, ?_, ?_⟩
  · rw [List.nodup_iff_injective_getElem]
    rintro ⟨a, ha⟩ ⟨b, hb⟩ hab0
    have ha' : a < n := hlen ▸ ha
    have hb' : b < n := hlen ▸ hb
    have hab : res[a] = res[b] := hab0
    rw [← List.getD_eq_getElem res 0 ha, ← List.getD_eq_getElem res 0 hb,
      hres a ha', hres b hb'] at hab
    have hσa : σ a < old.length := holen ▸ hσlt a ha'
    have hσb : σ b < old.length := holen ▸ hσlt b hb'
    rw [List.getD_eq_getElem old 0 hσa, List.getD_eq_getElem old 0 hσb] at hab
    exact Fin.ext (hσinj a ha' b hb' (hond.getElem_inj_iff.mp hab))
  · intro v hv
    obtain ⟨i, hi, rfl⟩ := List.mem_iff_getElem.mp hv
    have hi' : i < n := hlen ▸ hi
    rw [← List.getD_eq_getElem res 0 hi, hres i hi']
    exact hoval _ (getD_mem (holen ▸ hσlt i hi') 0)

/-! ### applyScatter: the global move keeps the permutation invariant -/

theorem map_getD_range {mp : List ℕ} {n : ℕ} (h : mp.length = n) :
    (List.range n).map (fun i => mp.getD i 0) = mp := by
  refine List.ext_getElem (by simp [h]) fun i h1 h2 => ?_
  simp only [List.getElem_map, List.getElem_range]
  exact List.getD_eq_getElem mp 0 h2

theorem applyScatter_length (mp old : List ℕ) :
    (applyScatter mp old).length = old.length := by
  unfold applyScatter
  rw [foldl_set_length, List.length_replicate]

theorem applyScatter_getD {mp old : List ℕ} {n : ℕ} (hn : old.length = n)
    (hmplen : mp.length = n) (hmpnd : mp.Nodup) (hmplt : ∀ v ∈ mp, v < n)
    {i : ℕ} (hi : i < n) :
    (applyScatter mp old).getD (mp.getD i 0) 0 = old.getD i 0 := by
  have hmap : (List.range n).map (fun x => mp.getD x 0) = mp := map_getD_range hmplen
  have hnd : ((List.range n).map fun x => mp.getD x 0).Nodup := by
    rw [hmap]; exact hmpnd
  have hlt : ∀ x ∈ List.range n, mp.getD x 0 < (List.replicate n (0 : ℕ)).length := by
    intro x hx
    rw [List.length_replicate]
    exact hmplt _ (getD_mem (by rw [hmplen]; exact List.mem_range.mp hx) 0)
  unfold applyScatter
  rw [hn, foldl_set_getD (List.range n) _ _ _ hnd hlt,
    find?_by_tgt hnd (List.mem_range.mpr hi)]

theorem isPermGrid_applyScatter {n : ℕ} {mp old : List ℕ}
    (hperm : isPermGrid n old) (hmplen : mp.length = n) (hmpnd : mp.Nodup)
    (hmplt : ∀ v ∈ mp, v < n) : isPermGrid n (applyScatter mp old) := by
  refine isPermGrid_reindex (fun j => List.indexOf j mp) hperm
    (by rw [applyScatter_length, hperm.1]) ?_ ?_ ?_
  · intro m hm
    rw [← hmplen]
    exact indexOf_lt_of_mem (mem_of_perm_values hmplen hmpnd hmplt hm)
  · intro m1 h1 m2 h2 h0
    have h : List.indexOf m1 mp = List.indexOf m2 mp := h0
    have e1 := getD_indexOf (mem_of_perm_values hmplen hmpnd hmplt h1) 0
    rw [h, getD_indexOf (mem_of_perm_values hmplen hmpnd hmplt h2) 0] at e1
    exact e1.symm
  · intro m hm
    have hmem : m ∈ mp := mem_of_perm_values hmplen hmpnd hmplt hm
    have hidx : List.indexOf m mp < n := hmplen ▸ indexOf_lt_of_mem hmem
    have := applyScatter_getD hperm.1 hmplen hmpnd hmplt hidx
    rwa [getD_indexOf hmem 0] at this

/-- The global move apply validates its op id and otherwise scatters the
grid through the precomputed index map. -/
theorem apply_eq_ok {s : EngineState} {op : ℕ} (hop : op < 24) :
    apply s op = .ok { s with
      grid := applyScatter (rot_index_map s.N op) s.grid,
      last_op_id := some op,
      last_action := some (.glob op) } := by
  rw [apply, if_pos hop]

theorem apply_preserves_perm {s : EngineState} {op : ℕ} (hN : s.N % 2 = 1)
    (hop : op < 24) (hperm : isPermGrid (s.N ^ 3) s.grid) :
    isPermGrid (s.N ^ 3) (applyScatter (rot_index_map s.N op) s.grid) :=
  isPermGrid_applyScatter hperm (length_rot_index_map hN op)
    (nodup_rot_index_map hop) (rot_index_map_entries_lt hN hop)

/-! ### shuffle keeps the permutation invariant -/

theorem isPermGrid_swapL {n : ℕ} {l : List ℕ} (hperm : isPermGrid n l)
    {i j : ℕ} (hi : i < n) (hj : j < n) : isPermGrid n (swapL l i j) := by
  have hlen : l.length = n := hperm.1
  refine isPermGrid_reindex (fun m => if m = j then i else if m = i then j else m)
    hperm (by simp [swapL, hlen]) ?_ ?_ ?_
  · intro m hm
    show (if m = j then i else if m = i then j else m) < n
    split_ifs <;> omega
  · intro m1 h1 m2 h2 h0
    have h : (if m1 = j then i else if m1 = i then j else m1)
        = (if m2 = j then i else if m2 = i then j else m2) := h0
    split_ifs at h <;> omega
  · intro m hm
    show (swapL l i j).getD m 0
      = l.getD (if m = j then i else if m = i then j else m) 0
    by_cases h1 : m = j
    · subst h1
      rw [if_pos rfl, swapL, getD_set_self (by rw [List.length_set, hlen]; exact hj)]
    · rw [if_neg h1, swapL, getD_set_ne (fun h => h1 h.symm)]
      by_cases h2 : m = i
      · subst h2
        rw [if_pos rfl, getD_set_self (hlen ▸ hi)]
      · rw [if_neg h2, getD_set_ne (fun h => h2 h.symm)]

theorem isPermGrid_shuffleAux {n : ℕ} (g : Rng) {l : List ℕ}
    (hperm : isPermGrid n l) {i : ℕ} (hi : i < n) :
    isPermGrid n (shuffleAux g l i).1 := by
  induction i generalizing g l with
  | zero => exact hperm
  | succ i ih =>
    rw [shuffleAux]
    have h2 : g 0 % (i + 2) < i + 2 := Nat.mod_lt _ (by omega)
    exact ih _ (isPermGrid_swapL hperm hi (by omega)) (by omega)

theorem isPermGrid_shuffle {n : ℕ} (g : Rng) {l : List ℕ}
    (hperm : isPermGrid n l) : isPermGrid n (shuffle g l).1 := by
  rw [shuffle, hperm.1]
  match n, hperm with
  | 0, hperm => exact hperm
  | n + 1, hperm => exact isPermGrid_shuffleAux g hperm (by omega)

theorem randomize_preserves_perm {s : EngineState} (g : Rng)
    (hperm : isPermGrid (s.N ^ 3) s.grid) :
    isPermGrid (s.N ^ 3) (randomize s g).grid :=
  isPermGrid_shuffle g hperm

/-! ### Region enumeration lemmas -/

/-- Componentwise vector sum, for stating the local mapping lemmas. -/
def vadd (a b : Vec3) : Vec3 := (a.1 + b.1, a.2.1 + b.2.1, a.2.2 + b.2.2)

/-- Componentwise vector difference. -/
def vsub (a b : Vec3) : Vec3 := (a.1 - b.1, a.2.1 - b.2.1, a.2.2 - b.2.2)

theorem vsub_vadd_cancel (c w : Vec3) : vsub (vadd c w) c = w := by
  obtain ⟨c1, c2, c3⟩ := c
  obtain ⟨w1, w2, w3⟩ := w
  simp only [vadd, vsub, Prod.mk.injEq]
  refine ⟨by ring, by ring, by ring⟩

theorem vadd_vsub_cancel (c w : Vec3) : vadd c (vsub w c) = w := by
  obtain ⟨c1, c2, c3⟩ := c
  obtain ⟨w1, w2, w3⟩ := w
  simp only [vadd, vsub, Prod.mk.injEq]
  refine ⟨by ring, by ring, by ring⟩

theorem flatMap_congr {α β : Type} {l : List α} {f g : α → List β}
    (h : ∀ a ∈ l, f a = g a) : l.flatMap f = l.flatMap g := by
  induction l with
  | nil => rfl
  | cons a t ih =>
    rw [List.flatMap_cons, List.flatMap_cons, h a (by simp),
      ih fun x hx => h x (by simp [hx])]

theorem flatMap_singleton_eq_map {α β : Type} (l : List α) (f : α → β) :
    (l.flatMap fun x => [f x]) = l.map f := by
  induction l with
  | nil => rfl
  | cons a t ih => rw [List.flatMap_cons, ih]; rfl

/-- The Chebyshev guard inside the region loop never skips: the region
enumeration is the plain product of the three coordinate ranges. -/
theorem region_coords_eq (c : Vec3) {r : ℤ} (_hr : 0 ≤ r) :
    region_coords c r
      = (rangeZ (c.1 - r) (c.1 + r + 1)).flatMap fun x =>
          (rangeZ (c.2.1 - r) (c.2.1 + r + 1)).flatMap fun y =>
            (rangeZ (c.2.2 - r) (c.2.2 + r + 1)).map fun z => (x, y, z) := by
  unfold region_coords
  refine flatMap_congr fun x hx => flatMap_congr fun y hy => ?_
  rw [← flatMap_singleton_eq_map]
  refine flatMap_congr fun z hz => ?_
  rw [mem_rangeZ] at hx hy hz
  rw [if_neg]
  simp only [not_lt, max_le_iff, abs_le]
  omega

theorem mem_region_coords {c oc : Vec3} {r : ℤ} (hr : 0 ≤ r) :
    oc ∈ region_coords c r ↔
      |oc.1 - c.1| ≤ r ∧ |oc.2.1 - c.2.1| ≤ r ∧ |oc.2.2 - c.2.2| ≤ r := by
  obtain ⟨x, y, z⟩ := oc
  rw [region_coords_eq c hr]
  simp only [List.mem_flatMap, List.mem_map, mem_rangeZ]
  constructor
  · rintro ⟨x1, hx, y1, hy, z1, hz, h⟩
    obtain ⟨rfl, rfl, rfl⟩ : x1 = x ∧ y1 = y ∧ z1 = z := by
      simpa [Prod.ext_iff] using h
    simp only [abs_le]
    refine ⟨by omega, by omega, by omega⟩
  · simp only [abs_le]
    rintro ⟨hx, hy, hz⟩
    exact ⟨x, by omega, y, by omega, z, by omega, rfl⟩

theorem length_region_coords (c : Vec3) {r : ℤ} (hr : 0 ≤ r) :
    (region_coords c r).length = (2 * r + 1).toNat ^ 3 := by
  rw [region_coords_eq c hr]
  have hlen : ∀ a b : ℤ, (rangeZ (a - r) (a + r + 1)).length = (2 * r + 1).toNat := by
    intro a b
    rw [rangeZ, List.length_map, List.length_range]
    omega
  rw [length_flatMap_const _ _ ((2 * r + 1).toNat * (2 * r + 1).toNat)
    fun a _ => ?_]
  · rw [hlen c.1 0]; ring
  · rw [length_flatMap_const _ _ (2 * r + 1).toNat fun b _ => ?_, hlen c.2.1 0]
    rw [List.length_map, hlen c.2.2 0]

theorem nodup_region_coords (c : Vec3) {r : ℤ} (hr : 0 ≤ r) :
    (region_coords c r).Nodup := by
  rw [region_coords_eq c hr]
  refine List.nodup_flatMap.mpr ⟨fun x _ => ?_, ?_⟩
  · refine List.nodup_flatMap.mpr ⟨fun y _ => ?_, ?_⟩
    · exact (nodup_rangeZ _ _).map fun z1 z2 h => by
        simpa [Prod.ext_iff] using h
    · refine (nodup_rangeZ _ _).imp ?_
      intro y1 y2 hne p hp1 hp2
      have h1 : p.2.1 = y1 := by
        obtain ⟨z, _, rfl⟩ := List.mem_map.mp hp1; rfl
      have h2 : p.2.1 = y2 := by
        obtain ⟨z, _, rfl⟩ := List.mem_map.mp hp2; rfl
      exact hne (h1 ▸ h2 ▸ rfl)
  · refine (nodup_rangeZ _ _).imp ?_
    intro x1 x2 hne p hp1 hp2
    have h1 : p.1 = x1 := by
      obtain ⟨y, _, hy⟩ := List.mem_flatMap.mp hp1
      obtain ⟨z, _, rfl⟩ := List.mem_map.mp hy; rfl
    have h2 : p.1 = x2 := by
      obtain ⟨y, _, hy⟩ := List.mem_flatMap.mp hp2
      obtain ⟨z, _, rfl⟩ := List.mem_map.mp hy; rfl
    exact hne (h1 ▸ h2 ▸ rfl)

/-! ### Local mapping lemmas -/

/-- The region-in-bounds condition of apply_local: the Chebyshev ball of
radius r around the center lies inside the lattice cube. -/
def RegionOK (N : ℕ) (c : Vec3) (r : ℤ) : Prop :=
  |c.1| + r ≤ ((N / 2 : ℕ) : ℤ) ∧ |c.2.1| + r ≤ ((N / 2 : ℕ) : ℤ) ∧
    |c.2.2| + r ≤ ((N / 2 : ℕ) : ℤ)

instance (N : ℕ) (c : Vec3) (r : ℤ) : Decidable (RegionOK N c r) := by
  unfold RegionOK; infer_instance

theorem mem_region_coords_vadd {c w : Vec3} {r : ℤ} (hr : 0 ≤ r) :
    vadd c w ∈ region_coords c r ↔ |w.1| ≤ r ∧ |w.2.1| ≤ r ∧ |w.2.2| ≤ r := by
  rw [mem_region_coords hr]
  obtain ⟨c1, c2, c3⟩ := c
  obtain ⟨w1, w2, w3⟩ := w
  simp [vadd, add_sub_cancel_left]

theorem region_sub_cube {N : ℕ} {c oc : Vec3} {r : ℤ} (hr : 0 ≤ r)
    (hreg : RegionOK N c r) (hmem : oc ∈ region_coords c r) :
    inCube (N / 2) oc := by
  rw [mem_region_coords hr] at hmem
  obtain ⟨h1, h2, h3⟩ := hmem
  obtain ⟨g1, g2, g3⟩ := hreg
  have g1' := abs_le.mp (show |c.1| ≤ ((N / 2 : ℕ) : ℤ) - r by omega)
  have g2' := abs_le.mp (show |c.2.1| ≤ ((N / 2 : ℕ) : ℤ) - r by omega)
  have g3' := abs_le.mp (show |c.2.2| ≤ ((N / 2 : ℕ) : ℤ) - r by omega)
  simp only [abs_le] at h1 h2 h3
  exact ⟨by simp only [abs_le]; omega, by simp only [abs_le]; omega,
    by simp only [abs_le]; omega⟩

/-- The rotated relative offset of a region member stays within the
Chebyshev ball. -/
theorem rot_rel_bound {op : ℕ} (hop : op < 24) {c oc : Vec3} {r : ℤ}
    (hr : 0 ≤ r) (hmem : oc ∈ region_coords c r) :
    |(mat_vec (ROTATIONS.getD op idMat) (vsub oc c)).1| ≤ r ∧
    |(mat_vec (ROTATIONS.getD op idMat) (vsub oc c)).2.1| ≤ r ∧
    |(mat_vec (ROTATIONS.getD op idMat) (vsub oc c)).2.2| ≤ r := by
  rw [mem_region_coords hr] at hmem
  exact mat_vec_bound (rots_signed _ (rots_getD_mem op hop))
    hmem.1 hmem.2.1 hmem.2.2

/-- The rotated image coordinate of a region member is again a region
member. -/
theorem rot_image_mem_region {op : ℕ} (hop : op < 24) {c oc : Vec3} {r : ℤ}
    (hr : 0 ≤ r) (hmem : oc ∈ region_coords c r) :
    vadd c (mat_vec (ROTATIONS.getD op idMat) (vsub oc c)) ∈ region_coords c r :=
  (mem_region_coords_vadd hr).mpr (rot_rel_bound hop hr hmem)

/-- The rotated image coordinate of a region member is in-cube whenever the
region is in bounds. -/
theorem rot_image_inCube {N op : ℕ} (hop : op < 24) {c oc : Vec3} {r : ℤ}
    (hr : 0 ≤ r) (hreg : RegionOK N c r) (hmem : oc ∈ region_coords c r) :
    inCube (N / 2) (vadd c (mat_vec (ROTATIONS.getD op idMat) (vsub oc c))) :=
  region_sub_cube hr hreg (rot_image_mem_region hop hr hmem)

/-- local_mapping, written with the vector helpers. -/
theorem local_mapping_eq (N op : ℕ) (c : Vec3) (r : ℤ) :
    local_mapping N op c r = (region_coords c r).map fun oc =>
      ((coord_to_index N oc).getD 0,
       (coord_to_index N
         (vadd c (mat_vec (ROTATIONS.getD op idMat) (vsub oc c)))).getD 0) :=
  rfl

theorem doms_eq (N op : ℕ) (c : Vec3) (r : ℤ) :
    (local_mapping N op c r).map Prod.fst
      = (region_coords c r).map fun oc => (coord_to_index N oc).getD 0 := by
  rw [local_mapping_eq, List.map_map]; rfl

theorem imgs_eq (N op : ℕ) (c : Vec3) (r : ℤ) :
    (local_mapping N op c r).map Prod.snd
      = (region_coords c r).map fun oc =>
          (coord_to_index N
            (vadd c (mat_vec (ROTATIONS.getD op idMat) (vsub oc c)))).getD 0 := by
  rw [local_mapping_eq, List.map_map]; rfl

theorem nodup_doms {N op : ℕ} {c : Vec3} {r : ℤ} (hr : 0 ≤ r)
    (hreg : RegionOK N c r) :
    ((local_mapping N op c r).map Prod.fst).Nodup := by
  rw [doms_eq]
  refine (nodup_region_coords c hr).map_on ?_
  intro c1 h1 c2 h2 heq
  rw [coord_to_index_getD (region_sub_cube hr hreg h1),
    coord_to_index_getD (region_sub_cube hr hreg h2)] at heq
  exact c2i_inj (region_sub_cube hr hreg h1) (region_sub_cube hr hreg h2) heq

theorem nodup_imgs {N op : ℕ} (hop : op < 24) {c : Vec3} {r : ℤ} (hr : 0 ≤ r)
    (hreg : RegionOK N c r) :
    ((local_mapping N op c r).map Prod.snd).Nodup := by
  rw [imgs_eq]
  refine (nodup_region_coords c hr).map_on ?_
  intro c1 h1 c2 h2 heq
  rw [coord_to_index_getD (rot_image_inCube hop hr hreg h1),
    coord_to_index_getD (rot_image_inCube hop hr hreg h2)] at heq
  have hnc := c2i_inj (rot_image_inCube hop hr hreg h1)
    (rot_image_inCube hop hr hreg h2) heq
  have hw : mat_vec (ROTATIONS.getD op idMat) (vsub c1 c)
      = mat_vec (ROTATIONS.getD op idMat) (vsub c2 c) := by
    have := congrArg (fun v => vsub v c) hnc
    simpa only [vsub_vadd_cancel] using this
  have hrel := mat_vec_inj (rots_getD_mem op hop) hw
  have := congrArg (vadd c) hrel
  simpa only [vadd_vsub_cancel] using this

theorem doms_lt {N op : ℕ} (hN : N % 2 = 1) {c : Vec3} {r : ℤ} (hr : 0 ≤ r)
    (hreg : RegionOK N c r) :
    ∀ v ∈ (local_mapping N op c r).map Prod.fst, v < N ^ 3 := by
  rw [doms_eq]
  intro v hv
  obtain ⟨oc, hoc, rfl⟩ := List.mem_map.mp hv
  rw [coord_to_index_getD (region_sub_cube hr hreg hoc)]
  exact c2i_lt hN (region_sub_cube hr hreg hoc)

theorem imgs_lt {N op : ℕ} (hN : N % 2 = 1) (hop : op < 24) {c : Vec3}
    {r : ℤ} (hr : 0 ≤ r) (hreg : RegionOK N c r) :
    ∀ v ∈ (local_mapping N op c r).map Prod.snd, v < N ^ 3 := by
  rw [imgs_eq]
  intro v hv
  obtain ⟨oc, hoc, rfl⟩ := List.mem_map.mp hv
  rw [coord_to_index_getD (rot_image_inCube hop hr hreg hoc)]
  exact c2i_lt hN (rot_image_inCube hop hr hreg hoc)

theorem imgs_subset_doms {N op : ℕ} (hop : op < 24) {c : Vec3} {r : ℤ}
    (hr : 0 ≤ r) :
    ∀ v ∈ (local_mapping N op c r).map Prod.snd,
      v ∈ (local_mapping N op c r).map Prod.fst := by
  rw [imgs_eq, doms_eq]
  intro v hv
  obtain ⟨oc, hoc, rfl⟩ := List.mem_map.mp hv
  exact List.mem_map.mpr ⟨_, rot_image_mem_region hop hr hoc, rfl⟩

theorem imgs_toFinset_eq_doms {N op : ℕ} (hop : op < 24) {c : Vec3} {r : ℤ}
    (hr : 0 ≤ r) (hreg : RegionOK N c r) :
    ((local_mapping N op c r).map Prod.snd).toFinset
      = ((local_mapping N op c r).map Prod.fst).toFinset := by
  refine Finset.eq_of_subset_of_card_le
    (fun v hv => List.mem_toFinset.mpr
      (imgs_subset_doms hop hr v (List.mem_toFinset.mp hv))) ?_
  rw [List.toFinset_card_of_nodup (nodup_doms hr hreg),
    List.toFinset_card_of_nodup (nodup_imgs hop hr hreg),
    List.length_map, List.length_map]

theorem doms_subset_imgs {N op : ℕ} (hop : op < 24) {c : Vec3} {r : ℤ}
    (hr : 0 ≤ r) (hreg : RegionOK N c r) :
    ∀ v ∈ (local_mapping N op c r).map Prod.fst,
      v ∈ (local_mapping N op c r).map Prod.snd := by
  intro v hv
  exact List.mem_toFinset.mp
    (imgs_toFinset_eq_doms hop hr hreg ▸ List.mem_toFinset.mpr hv)

/-- With valid arguments, the validation cascade of apply_local passes and
the move scatters the region mapping over the grid. -/
theorem apply_local_eq_ok {s : EngineState} {op : ℕ} {c : Vec3} {r : ℤ}
    (hop : op < 24) (hr : 1 ≤ r) (hreg : RegionOK s.N c r) :
    apply_local s op c r = .ok { s with
      grid := applyLocalScatter (local_mapping s.N op c r) s.grid,
      last_op_id := none,
      last_action := some (.loc op c r) } := by
  obtain ⟨g1, g2, g3⟩ := hreg
  have hcube : inCube (s.N / 2) c := by
    refine ⟨by omega, by omega, by omega⟩
  rw [apply_local, if_neg (by simpa using hop),
    if_neg (by simpa using mem_index_to_coord.mpr hcube),
    if_neg (by omega)]
  dsimp only
  rw [if_neg (by simp only [not_lt, max_le_iff]; omega),
    if_neg (by push_neg; refine ⟨by omega, by omega, by omega⟩)]
  rw [if_neg ?_]
  have hnd := @nodup_doms s.N op c r (by omega) ⟨g1, g2, g3⟩
  have hlen : (local_mapping s.N op c r).length = (2 * r + 1).toNat ^ 3 := by
    rw [local_mapping_eq, List.length_map, length_region_coords c (by omega)]
  rw [hnd.dedup, List.length_map, hlen]
  have h1 : ((2 * r + 1).toNat : ℤ) = 2 * r + 1 := Int.toNat_of_nonneg (by omega)
  push_cast
  rw [h1]
  exact fun h => h rfl

/-! ### applyLocalScatter: pointwise behaviour -/

/-- The per-coordinate pair function of the local mapping. -/
def mapFn (N op : ℕ) (c : Vec3) (oc : Vec3) : ℕ × ℕ :=
  ((coord_to_index N oc).getD 0,
   (coord_to_index N
     (vadd c (mat_vec (ROTATIONS.getD op idMat) (vsub oc c)))).getD 0)

theorem local_mapping_eq_map (N op : ℕ) (c : Vec3) (r : ℤ) :
    local_mapping N op c r = (region_coords c r).map (mapFn N op c) := rfl

theorem applyLocalScatter_length (mapping : List (ℕ × ℕ)) (old : List ℕ) :
    (applyLocalScatter mapping old).length = old.length :=
  foldl_set_length mapping Prod.snd (fun q => old.getD q.1 0) old

theorem applyLocalScatter_getD_eq {mapping : List (ℕ × ℕ)} {old : List ℕ}
    (hnd : (mapping.map Prod.snd).Nodup)
    (hlt : ∀ p ∈ mapping, p.2 < old.length) {p : ℕ × ℕ} (hp : p ∈ mapping) :
    (applyLocalScatter mapping old).getD p.2 0 = old.getD p.1 0 := by
  have h := foldl_set_getD mapping Prod.snd (fun q => old.getD q.1 0) old
    hnd hlt p.2
  rw [find?_by_tgt hnd hp] at h
  exact h

theorem applyLocalScatter_getD_of_find {mapping : List (ℕ × ℕ)}
    {old : List ℕ} (hnd : (mapping.map Prod.snd).Nodup)
    (hlt : ∀ p ∈ mapping, p.2 < old.length) (j : ℕ) :
    (applyLocalScatter mapping old).getD j 0
      = match mapping.find? (fun p => p.2 == j) with
        | some p => old.getD p.1 0
        | none => old.getD j 0 := by
  unfold applyLocalScatter
  have h := foldl_set_getD mapping Prod.snd (fun q => old.getD q.1 0) old
    hnd hlt j
  rcases hfind : mapping.find? (fun p => p.2 == j) with _ | p <;>
    simp only [hfind] at h ⊢ <;> exact h

theorem applyLocalScatter_getD_not_img {mapping : List (ℕ × ℕ)}
    {old : List ℕ} (hnd : (mapping.map Prod.snd).Nodup)
    (hlt : ∀ p ∈ mapping, p.2 < old.length) {j : ℕ}
    (hj : ∀ p ∈ mapping, p.2 ≠ j) :
    (applyLocalScatter mapping old).getD j 0 = old.getD j 0 :=
  foldl_set_getD_of_not_mem mapping Prod.snd (fun q => old.getD q.1 0) old
    hnd hlt hj

/-! ### The local move keeps the permutation invariant -/

/-- Preimage selector of the local scatter: the old index paired with a new
index, and the identity off the region image. -/
def preIdx (mapping : List (ℕ × ℕ)) (j : ℕ) : ℕ :=
  match mapping.find? (fun p => p.2 == j) with
  | some p => p.1
  | none => j

theorem applyLocalScatter_getD_preIdx {mapping : List (ℕ × ℕ)}
    {old : List ℕ} (hnd : (mapping.map Prod.snd).Nodup)
    (hlt : ∀ p ∈ mapping, p.2 < old.length) (j : ℕ) :
    (applyLocalScatter mapping old).getD j 0 = old.getD (preIdx mapping j) 0 := by
  rw [applyLocalScatter_getD_of_find hnd hlt j, preIdx]
  rcases hfind : mapping.find? (fun p => p.2 == j) with _ | p <;> simp [hfind]

theorem isPermGrid_applyLocalScatter {N op : ℕ} {c : Vec3} {r : ℤ}
    {old : List ℕ} (hN : N % 2 = 1) (hop : op < 24) (hr : 0 ≤ r)
    (hreg : RegionOK N c r) (hperm : isPermGrid (N ^ 3) old) :
    isPermGrid (N ^ 3) (applyLocalScatter (local_mapping N op c r) old) := by
  have hnd := @nodup_imgs N op hop c r hr hreg
  have hlt : ∀ p ∈ local_mapping N op c r, p.2 < old.length := by
    intro p hp
    rw [hperm.1]
    exact imgs_lt hN hop hr hreg _ (List.mem_map_of_mem Prod.snd hp)
  refine isPermGrid_reindex (preIdx (local_mapping N op c r)) hperm
    (by rw [applyLocalScatter_length, hperm.1]) ?_ ?_
    (fun j _ => applyLocalScatter_getD_preIdx hnd hlt j)
  · intro j hj
    unfold preIdx
    rcases hfind : (local_mapping N op c r).find? (fun p => p.2 == j) with _ | p
    · simp only [hfind]
      exact hj
    · simp only [hfind]
      have hp := List.mem_of_find?_eq_some hfind
      exact doms_lt hN hr hreg _ (List.mem_map_of_mem Prod.fst hp)
  · intro j1 h1 j2 h2 h
    unfold preIdx at h
    rcases hf1 : (local_mapping N op c r).find? (fun p => p.2 == j1) with _ | p1 <;>
      rcases hf2 : (local_mapping N op c r).find? (fun p => p.2 == j2) with _ | p2 <;>
      simp only [hf1, hf2] at h
    · exact h
    · exfalso
      have hp2 := List.mem_of_find?_eq_some hf2
      have hd : p2.1 ∈ (local_mapping N op c r).map Prod.fst :=
        List.mem_map_of_mem Prod.fst hp2
      have hi := doms_subset_imgs hop hr hreg _ hd
      obtain ⟨q, hq, hq2⟩ := List.mem_map.mp hi
      exact (List.find?_eq_none.mp hf1 q hq) (by simp [hq2, ← h])
    · exfalso
      have hp1 := List.mem_of_find?_eq_some hf1
      have hd : p1.1 ∈ (local_mapping N op c r).map Prod.fst :=
        List.mem_map_of_mem Prod.fst hp1
      have hi := doms_subset_imgs hop hr hreg _ hd
      obtain ⟨q, hq, hq2⟩ := List.mem_map.mp hi
      exact (List.find?_eq_none.mp hf2 q hq) (by simp [hq2, h])
    · have hp1 := List.mem_of_find?_eq_some hf1
      have hp2 := List.mem_of_find?_eq_some hf2
      have hpe : p1 = p2 :=
        List.inj_on_of_nodup_map (nodup_doms hr hreg) hp1 hp2 h
      have e1 : p1.2 = j1 := by simpa using List.find?_some hf1
      have e2 : p2.2 = j2 := by simpa using List.find?_some hf2
      rw [← e1, ← e2, hpe]

/-! ### Local inverse roundtrip -/

/-- The inverse local mapping sends the rotated image of a region
coordinate back to that coordinate. -/
theorem mapFn_snd_inv {N op : ℕ} (hop : op < 24) (c oc : Vec3) :
    (mapFn N (inverse_rotation_index op) c
      (vadd c (mat_vec (ROTATIONS.getD op idMat) (vsub oc c)))).2
      = (coord_to_index N oc).getD 0 := by
  unfold mapFn
  dsimp only
  rw [rots_inv_transpose op hop, vsub_vadd_cancel,
    mat_vec_transpose_cancel (rots_getD_mem op hop), vadd_vsub_cancel]

/-- Applying a local rotation and then its inverse on the same center and
radius restores the grid exactly. -/
theorem local_roundtrip_grid {N op : ℕ} {c : Vec3} {r : ℤ} {old : List ℕ}
    (hN : N % 2 = 1) (hop : op < 24) (hr : 0 ≤ r) (hreg : RegionOK N c r)
    (hlen : old.length = N ^ 3) :
    applyLocalScatter (local_mapping N (inverse_rotation_index op) c r)
      (applyLocalScatter (local_mapping N op c r) old) = old := by
  have hinv : inverse_rotation_index op < 24 := inv_rot_lt op hop
  have hg1len : (applyLocalScatter (local_mapping N op c r) old).length
      = old.length := applyLocalScatter_length _ _
  have hnd1 : ((local_mapping N op c r).map Prod.snd).Nodup :=
    nodup_imgs hop hr hreg
  have hlt1 : ∀ p ∈ local_mapping N op c r, p.2 < old.length := fun p hp => by
    rw [hlen]
    exact imgs_lt hN hop hr hreg _ (List.mem_map_of_mem Prod.snd hp)
  have hnd2 : ((local_mapping N (inverse_rotation_index op) c r).map
      Prod.snd).Nodup := nodup_imgs hinv hr hreg
  have hlt2 : ∀ p ∈ local_mapping N (inverse_rotation_index op) c r,
      p.2 < (applyLocalScatter (local_mapping N op c r) old).length :=
    fun p hp => by
      rw [hg1len, hlen]
      exact imgs_lt hN hinv hr hreg _ (List.mem_map_of_mem Prod.snd hp)
  refine List.ext_getElem (by rw [applyLocalScatter_length, hg1len])
    fun j hja hjb => ?_
  rw [← List.getD_eq_getElem _ 0 hja, ← List.getD_eq_getElem _ 0 hjb]
  by_cases hmem : j ∈ (local_mapping N op c r).map Prod.fst
  · rw [doms_eq] at hmem
    obtain ⟨oc, hoc, hjoc⟩ := List.mem_map.mp hmem
    have hPreMem : vadd c (mat_vec (ROTATIONS.getD op idMat) (vsub oc c))
        ∈ region_coords c r := rot_image_mem_region hop hr hoc
    have hq : mapFn N (inverse_rotation_index op) c
        (vadd c (mat_vec (ROTATIONS.getD op idMat) (vsub oc c)))
        ∈ local_mapping N (inverse_rotation_index op) c r := by
      rw [local_mapping_eq_map]
      exact List.mem_map_of_mem _ hPreMem
    have hq2 : (mapFn N (inverse_rotation_index op) c
        (vadd c (mat_vec (ROTATIONS.getD op idMat) (vsub oc c)))).2 = j := by
      rw [mapFn_snd_inv hop c oc]
      exact hjoc
    have hp : mapFn N op c oc ∈ local_mapping N op c r := by
      rw [local_mapping_eq_map]
      exact List.mem_map_of_mem _ hoc
    rw [← hq2, applyLocalScatter_getD_eq hnd2 hlt2 hq]
    have hq1 : (mapFn N (inverse_rotation_index op) c
        (vadd c (mat_vec (ROTATIONS.getD op idMat) (vsub oc c)))).1
        = (mapFn N op c oc).2 := rfl
    rw [hq1, applyLocalScatter_getD_eq hnd1 hlt1 hp]
    rw [show (mapFn N op c oc).1 = j from hjoc, hq2]
  · have hno1 : ∀ p ∈ local_mapping N op c r, p.2 ≠ j := by
      intro p hp hcontra
      refine hmem ?_
      rw [← hcontra]
      exact imgs_subset_doms hop hr _ (List.mem_map_of_mem Prod.snd hp)
    have hno2 : ∀ p ∈ local_mapping N (inverse_rotation_index op) c r,
        p.2 ≠ j := by
      intro p hp hcontra
      refine hmem ?_
      rw [doms_eq]
      have hd := imgs_subset_doms hinv hr _ (List.mem_map_of_mem Prod.snd hp)
      rw [doms_eq] at hd
      rw [← hcontra]
      exact hd
    rw [applyLocalScatter_getD_not_img hnd2 hlt2 hno2,
      applyLocalScatter_getD_not_img hnd1 hlt1 hno1]

theorem inverse_local_eq_ok {op : ℕ} (hop : op < 24) (c : Vec3) (r : ℤ) :
    inverse_local op c r = .ok (inverse_rotation_index op, c, r) := by
  rw [inverse_local, inverse_op, if_pos hop]
  rfl

/-- C2: the permutation invariant.  For every odd N at least 3: construct
produces a permutation of 0 .. N**3-1, and randomize (under any draw
stream), apply with a valid op id, and apply_local with valid arguments
each map a permutation grid to a permutation grid. -/
theorem claim_permutation_invariant (N : ℕ) (hN2 : N % 2 = 1) (hN3 : 3 ≤ N) :
    isPermGrid (N ^ 3) (construct N).grid ∧
    (∀ s : EngineState, ∀ g : Rng, s.N = N → isPermGrid (N ^ 3) s.grid →
      isPermGrid (N ^ 3) (randomize s g).grid) ∧
    (∀ s : EngineState, ∀ op : ℕ, s.N = N → op < 24 →
      isPermGrid (N ^ 3) s.grid →
      ∃ s1, apply s op = .ok s1 ∧ isPermGrid (N ^ 3) s1.grid) ∧
    (∀ s : EngineState, ∀ op : ℕ, ∀ c : Vec3, ∀ r : ℤ, s.N = N → op < 24 →
      1 ≤ r → RegionOK N c r → isPermGrid (N ^ 3) s.grid →
      ∃ s1, apply_local s op c r = .ok s1 ∧ isPermGrid (N ^ 3) s1.grid) := by
  refine ⟨isPermGrid_range (N ^ 3), ?_, ?_, ?_⟩
  · intro s g hsN hperm
    subst hsN
    exact randomize_preserves_perm g hperm
  · intro s op hsN hop hperm
    subst hsN
    exact ⟨_, apply_eq_ok hop, apply_preserves_perm hN2 hop hperm⟩
  · intro s op c r hsN hop hr hreg hperm
    subst hsN
    exact ⟨_, apply_local_eq_ok hop hr hreg,
      isPermGrid_applyLocalScatter hN2 hop (by omega) hreg hperm⟩

/-- Witness for C2 at N = 3 with concrete inputs. -/
theorem claim_permutation_invariant_witness :
    isPermGrid 27 (construct 3).grid ∧
    isPermGrid 27 (randomize (construct 3) (fun i => i + 7)).grid ∧
    (∃ s1, apply (construct 3) 5 = .ok s1 ∧ isPermGrid 27 s1.grid) ∧
    (∃ s1, apply_local (construct 3) 5 (0, 0, 0) 1 = .ok s1 ∧
      isPermGrid 27 s1.grid) := by
  obtain ⟨h1, h2, h3, h4⟩ := claim_permutation_invariant 3 (by decide) (by decide)
  exact ⟨h1, h2 (construct 3) (fun i => i + 7) rfl (by decide),
    h3 (construct 3) 5 rfl (by decide) (by decide),
    h4 (construct 3) 5 (0, 0, 0) 1 rfl (by decide) (by decide) (by decide)
      (by decide)⟩

/-- C3: the local round trip.  For every op id, every center and radius at
least 1 whose Chebyshev cube lies inside the lattice, and every grid of the
right length, apply_local followed by apply_local on the triple returned by
inverse_local restores the grid, the canonical byte serialization, and
hence the canonical hash, exactly. -/
theorem claim_local_roundtrip (s : EngineState) (op : ℕ) (c : Vec3) (r : ℤ)
    (hN : s.N % 2 = 1) (hop : op < 24) (hr : 1 ≤ r)
    (hreg : RegionOK s.N c r) (hlen : s.grid.length = s.N ^ 3) :
    ∃ s1 s2 inv,
      apply_local s op c r = .ok s1 ∧
      inverse_local op c r = .ok inv ∧
      apply_local s1 inv.1 inv.2.1 inv.2.2 = .ok s2 ∧
      s2.grid = s.grid ∧
      canonical_bytes s2 = canonical_bytes s ∧
      hashB s2 = hashB s := by
  have h1 := @apply_local_eq_ok s op c r hop hr hreg
  have hinv : inverse_rotation_index op < 24 := inv_rot_lt op hop
  have hlen1 : (applyLocalScatter (local_mapping s.N op c r) s.grid).length
      = s.N ^ 3 := by rw [applyLocalScatter_length, hlen]
  have h2 := @apply_local_eq_ok
    { s with grid := applyLocalScatter (local_mapping s.N op c r) s.grid,
             last_op_id := none, last_action := some (.loc op c r) }
    (inverse_rotation_index op) c r hinv hr hreg
  refine ⟨_, _, _, h1, inverse_local_eq_ok hop c r, h2, ?_, ?_, ?_⟩
  · exact local_roundtrip_grid hN hop (by omega) hreg hlen
  · unfold canonical_bytes
    dsimp only
    rw [local_roundtrip_grid hN hop (by omega) hreg hlen]
  · unfold hashB canonical_bytes
    dsimp only
    rw [local_roundtrip_grid hN hop (by omega) hreg hlen]

/-- Witness for C3 at N = 3, op 5, center the origin, radius 1. -/
theorem claim_local_roundtrip_witness :
    ∃ s1 s2 inv,
      apply_local (construct 3) 5 (0, 0, 0) 1 = .ok s1 ∧
      inverse_local 5 (0, 0, 0) 1 = .ok inv ∧
      apply_local s1 inv.1 inv.2.1 inv.2.2 = .ok s2 ∧
      s2.grid = (construct 3).grid ∧
      canonical_bytes s2 = canonical_bytes (construct 3) ∧
      hashB s2 = hashB (construct 3) :=
  claim_local_roundtrip (construct 3) 5 (0, 0, 0) 1 (by decide) (by decide)
    (by decide) (by decide) (by decide)

/-- C5: the frame property of local moves.  After a valid apply_local,
every grid cell whose lattice coordinate lies outside the Chebyshev ball of
the given radius around the center holds exactly the token it held before
the call. -/
theorem claim_local_frame (s : EngineState) (op : ℕ) (c : Vec3) (r : ℤ)
    (hN : s.N % 2 = 1) (hop : op < 24) (hr : 1 ≤ r)
    (hreg : RegionOK s.N c r) (hlen : s.grid.length = s.N ^ 3) :
    ∃ s1, apply_local s op c r = .ok s1 ∧
      ∀ j, j < s.N ^ 3 →
        max |(i2c s.N j).1 - c.1|
          (max |(i2c s.N j).2.1 - c.2.1| |(i2c s.N j).2.2 - c.2.2|) > r →
        s1.grid.getD j 0 = s.grid.getD j 0 := by
  refine ⟨_, apply_local_eq_ok hop hr hreg, ?_⟩
  intro j hj hout
  dsimp only
  have hnd := @nodup_imgs s.N op hop c r (by omega) hreg
  have hlt : ∀ p ∈ local_mapping s.N op c r, p.2 < s.grid.length := by
    intro p hp
    rw [hlen]
    exact imgs_lt hN hop (by omega) hreg _ (List.mem_map_of_mem Prod.snd hp)
  refine applyLocalScatter_getD_not_img hnd hlt ?_
  intro p hp hcontra
  rw [local_mapping_eq_map] at hp
  obtain ⟨oc, hoc, rfl⟩ := List.mem_map.mp hp
  have hncmem := rot_image_mem_region hop (by omega) hoc
  have hcube := region_sub_cube (by omega) hreg hncmem
  have hj2 : (mapFn s.N op c oc).2
      = c2i s.N (vadd c (mat_vec (ROTATIONS.getD op idMat) (vsub oc c))) := by
    unfold mapFn
    dsimp only
    rw [coord_to_index_getD hcube]
  rw [hj2] at hcontra
  have : i2c s.N j = vadd c (mat_vec (ROTATIONS.getD op idMat) (vsub oc c)) := by
    rw [← hcontra, i2c_c2i hcube]
  rw [this] at hout
  rw [mem_region_coords (by omega : (0 : ℤ) ≤ r)] at hncmem
  simp only [gt_iff_lt, max_lt_iff] at hout
  obtain ⟨o1, o2, o3⟩ := hncmem
  omega

set_option maxRecDepth 4000 in
/-- Witness for C5 on the N = 5 engine, op 5, center the origin, radius 1:
the hypotheses are discharged concretely and the conclusion covers, for
instance, lattice index 0 with coordinate (-2, -2, -2) at Chebyshev
distance 2 from the origin. -/
theorem claim_local_frame_witness :
    ∃ s1, apply_local (construct 5) 5 (0, 0, 0) 1 = .ok s1 ∧
      ∀ j, j < 5 ^ 3 →
        max |(i2c 5 j).1 - 0|
          (max |(i2c 5 j).2.1 - 0| |(i2c 5 j).2.2 - 0|) > 1 →
        s1.grid.getD j 0 = (construct 5).grid.getD j 0 :=
  claim_local_frame (construct 5) 5 (0, 0, 0) 1 (by decide) (by decide)
    (by decide) (by decide) (by decide)

/-- The validation cascade of apply_local: any of the four bad-argument
conditions produces the InvalidArgument error. -/
theorem apply_local_error_of_bad {s : EngineState} {op : ℕ} {c : Vec3}
    {r : ℤ}
    (hbad : ¬ op < 24 ∨ ¬ inCube (s.N / 2) c ∨ r < 1 ∨ ¬ RegionOK s.N c r) :
    apply_local s op c r = .error .invalidArgument := by
  by_cases hop : op < 24
  · by_cases hcc : inCube (s.N / 2) c
    · by_cases hr : r < 1
      · rw [apply_local, if_neg (by simpa using hop),
          if_neg (by simpa using mem_index_to_coord.mpr hcc), if_pos hr]
      · have hreg : ¬ RegionOK s.N c r := by tauto
        rw [apply_local, if_neg (by simpa using hop),
          if_neg (by simpa using mem_index_to_coord.mpr hcc),
          if_neg hr]
        dsimp only
        rw [if_neg ?hmax]
        case hmax =>
          obtain ⟨hc1, hc2, hc3⟩ := hcc
          simp only [not_lt, max_le_iff]
          omega
        rw [if_pos ?hor]
        case hor =>
          by_contra hall
          push_neg at hall
          exact hreg ⟨hall.1, hall.2.1, hall.2.2⟩
    · rw [apply_local, if_neg (by simpa using hop),
        if_pos (by simpa using fun hm => hcc (mem_index_to_coord.mp hm))]
  · rw [apply_local, if_pos (by simpa using hop)]

/-- Inversion for a successful apply_local: the arguments were valid and
the result is the scattered state. -/
theorem apply_local_ok_inv {s : EngineState} {op : ℕ} {c : Vec3} {r : ℤ}
    {s1 : EngineState} (h : apply_local s op c r = .ok s1) :
    op < 24 ∧ 1 ≤ r ∧ RegionOK s.N c r ∧
      s1 = { s with
        grid := applyLocalScatter (local_mapping s.N op c r) s.grid,
        last_op_id := none,
        last_action := some (.loc op c r) } := by
  have hop : op < 24 := by
    by_contra hbad
    rw [apply_local_error_of_bad (Or.inl hbad)] at h
    cases h
  have hr : ¬ r < 1 := by
    intro hbad
    rw [apply_local_error_of_bad (Or.inr (Or.inr (Or.inl hbad)))] at h
    cases h
  have hreg : RegionOK s.N c r := by
    by_contra hbad
    rw [apply_local_error_of_bad (Or.inr (Or.inr (Or.inr hbad)))] at h
    cases h
  rw [apply_local_eq_ok hop (by omega) hreg] at h
  cases h
  exact ⟨hop, by omega, hreg, rfl⟩

/-- Inversion for a successful audit: the returned state is the audited
state, restored. -/
theorem auditE_ok_inv {s s1 : EngineState} (h : auditE s = .ok s1) :
    s1 = s := by
  unfold auditE at h
  rcases haux : audit s with ⟨sr, e⟩
  rw [haux] at h
  have hfst := audit_fst s
  rw [haux] at hfst
  dsimp only at hfst
  cases e
  · cases h
    exact hfst
  · cases h

/-- C10: apply_local raises InvalidArgument exactly when the op id is out
of range, the center is not a lattice coordinate, the radius is below 1, or
the radius cube around the center leaves the lattice; on success it returns
the scattered state.  In this functional embedding an error carries no
successor state, reflecting that the source validates everything before its
single mutation. -/
theorem claim_apply_local_validation (s : EngineState) (op : ℕ) (c : Vec3)
    (r : ℤ) :
    ((∃ e, apply_local s op c r = .error e) ↔
      (¬ op < 24 ∨ ¬ inCube (s.N / 2) c ∨ r < 1 ∨ ¬ RegionOK s.N c r)) ∧
    (∀ e, apply_local s op c r = .error e → e = .invalidArgument) := by
  have hcase := @apply_local_error_of_bad s op c r
  constructor
  · constructor
    · intro ⟨e, he⟩
      by_contra hgood
      push_neg at hgood
      obtain ⟨h1, h2, h3, h4⟩ := hgood
      rw [apply_local_eq_ok h1 (by omega) h4] at he
      cases he
    · intro hbad
      exact ⟨_, hcase hbad⟩
  · intro e he
    by_cases hgood : ¬ op < 24 ∨ ¬ inCube (s.N / 2) c ∨ r < 1 ∨
        ¬ RegionOK s.N c r
    · rw [hcase hgood] at he
      cases he
      rfl
    · push_neg at hgood
      obtain ⟨h1, h2, h3, h4⟩ := hgood
      rw [apply_local_eq_ok h1 (by omega) h4] at he
      cases he

/-- Witness for C10 at concrete inputs: an out-of-range radius on the N = 3
engine. -/
theorem claim_apply_local_validation_witness :
    ((∃ e, apply_local (construct 3) 5 (0, 0, 0) 0 = .error e) ↔
      (¬ 5 < 24 ∨ ¬ inCube (3 / 2) ((0 : ℤ), (0 : ℤ), (0 : ℤ)) ∨
        (0 : ℤ) < 1 ∨ ¬ RegionOK 3 (0, 0, 0) 0)) ∧
    (∀ e, apply_local (construct 3) 5 (0, 0, 0) 0 = .error e →
      e = .invalidArgument) :=
  claim_apply_local_validation (construct 3) 5 (0, 0, 0) 0

/-! ### Audit success on valid states -/

theorem ok_bind {α β : Type} (x : α) (f : α → Except Err β) :
    (Except.ok x : Except Err α) >>= f = f x := rfl

theorem perm_toFinset_eq {n : ℕ} {g : List ℕ} (hperm : isPermGrid n g) :
    g.toFinset = Finset.range n := by
  obtain ⟨hlen, hnd, hval⟩ := hperm
  refine Finset.eq_of_subset_of_card_le
    (fun v hv => Finset.mem_range.mpr (hval v (List.mem_toFinset.mp hv))) ?_
  rw [Finset.card_range, List.toFinset_card_of_nodup hnd, hlen]

theorem audit_permutation_ok {s : EngineState}
    (hperm : isPermGrid (s.N ^ 3) s.grid) : audit_permutation s = .ok () := by
  obtain ⟨hlen, hnd, hval⟩ := hperm
  unfold audit_permutation
  rw [if_neg (by simp [hlen]), if_neg (by simp [hnd.dedup, hlen]),
    if_neg (by simp [perm_toFinset_eq ⟨hlen, hnd, hval⟩])]

theorem check_map_bijection_ok {n3 : ℕ} {mp : List ℕ} (h1 : mp.length = n3)
    (h2 : mp.Nodup) (h3 : ∀ v ∈ mp, v < n3) :
    check_map_bijection n3 mp = .ok () := by
  unfold check_map_bijection
  have hany : mp.any (fun j => n3 ≤ j) = false := by
    rw [List.any_eq_false]
    intro x hx
    simpa using h3 x hx
  rw [if_neg (by simp [h1]), if_neg (by simp [hany]),
    if_neg (by simp [h2.dedup, h1])]

theorem listForM_ok {α : Type} {l : List α} {f : α → Except Err PUnit}
    (h : ∀ a ∈ l, f a = .ok PUnit.unit) : l.forM f = .ok PUnit.unit := by
  induction l with
  | nil => rfl
  | cons a t ih =>
    show f a >>= (fun _ => t.forM f) = .ok PUnit.unit
    rw [h a (by simp)]
    exact ih fun x hx => h x (by simp [hx])

theorem audit_rot_maps_ok_none {s : EngineState} (hN : s.N % 2 = 1)
    (hla : s.last_action = none) : audit_rot_maps s = .ok () := by
  unfold audit_rot_maps
  rw [hla]
  exact listForM_ok fun op hop =>
    check_map_bijection_ok (length_rot_index_map hN op)
      (nodup_rot_index_map (by simpa using List.mem_range.mp hop))
      (rot_index_map_entries_lt hN (by simpa using List.mem_range.mp hop))

theorem audit_rot_maps_ok_local {s : EngineState} {op : ℕ} {c : Vec3}
    {r : ℤ} (hN : s.N % 2 = 1) (hop : op < 24) (hr : 0 ≤ r)
    (hreg : RegionOK s.N c r) (hla : s.last_action = some (.loc op c r)) :
    audit_rot_maps s = .ok () := by
  unfold audit_rot_maps
  rw [hla]
  dsimp only
  have hdany : ((local_mapping s.N op c r).map Prod.fst).any
      (fun i => s.N ^ 3 ≤ i) = false := by
    rw [List.any_eq_false]
    intro x hx
    simpa using doms_lt hN hr hreg x hx
  have hiany : ((local_mapping s.N op c r).map Prod.snd).any
      (fun j => s.N ^ 3 ≤ j) = false := by
    rw [List.any_eq_false]
    intro x hx
    simpa using imgs_lt hN hop hr hreg x hx
  rw [if_neg (by simp [hdany]), if_neg (by simp [hiany]),
    if_neg (by simp [(nodup_doms hr hreg).dedup]),
    if_neg (by simp [(nodup_imgs hop hr hreg).dedup]),
    if_neg (by simp [(imgs_toFinset_eq_doms hop hr hreg).symm])]

theorem audit_roundtrip_ok_none {s : EngineState}
    (hla : s.last_action = none) : audit_inverse_roundtrip s = .ok () := by
  unfold audit_inverse_roundtrip
  rw [hla]

theorem audit_roundtrip_ok_local {s : EngineState} {op : ℕ} {c : Vec3}
    {r : ℤ} (hN : s.N % 2 = 1) (hop : op < 24) (hr : 1 ≤ r)
    (hreg : RegionOK s.N c r) (hla : s.last_action = some (.loc op c r))
    (hlen : s.grid.length = s.N ^ 3) :
    audit_inverse_roundtrip s = .ok () := by
  unfold audit_inverse_roundtrip
  rw [hla]
  dsimp only
  have h1 := @apply_local_eq_ok s op c r hop hr hreg
  have h2 := @apply_local_eq_ok
    { s with grid := applyLocalScatter (local_mapping s.N op c r) s.grid,
             last_op_id := none, last_action := some (.loc op c r) }
    (inverse_rotation_index op) c r (inv_rot_lt op hop) hr hreg
  rw [inverse_local_eq_ok hop c r, ok_bind, h1, ok_bind, h2, ok_bind]
  rw [if_neg ?_]
  show ¬ canonical_bytes _ ≠ canonical_bytes s
  unfold canonical_bytes
  dsimp only
  rw [local_roundtrip_grid hN hop (by omega) hreg hlen]
  simp

theorem auditE_eq_ok_of_checks {s : EngineState}
    (h1 : audit_permutation s = .ok ())
    (h2 : audit_rot_maps s = .ok ())
    (h3 : audit_inverse_roundtrip s = .ok ()) : auditE s = .ok s := by
  have hfst := audit_fst s
  have hsnd := audit_snd s
  rw [h1, ok_bind, h2, ok_bind, h3] at hsnd
  unfold auditE
  rcases haux : audit s with ⟨s1, e⟩
  rw [haux] at hfst hsnd
  dsimp only at hfst hsnd
  subst hfst
  rw [hsnd]

/-- On a permutation state with no recorded action, audit passes and
restores the state. -/
theorem auditE_ok_none {s : EngineState} (hN : s.N % 2 = 1)
    (hperm : isPermGrid (s.N ^ 3) s.grid) (hla : s.last_action = none) :
    auditE s = .ok s :=
  auditE_eq_ok_of_checks (audit_permutation_ok hperm)
    (audit_rot_maps_ok_none hN hla) (audit_roundtrip_ok_none hla)

/-- On a permutation state whose recorded action is a valid local move,
audit passes and restores the state. -/
theorem auditE_ok_local {s : EngineState} {op : ℕ} {c : Vec3} {r : ℤ}
    (hN : s.N % 2 = 1) (hperm : isPermGrid (s.N ^ 3) s.grid) (hop : op < 24)
    (hr : 1 ≤ r) (hreg : RegionOK s.N c r)
    (hla : s.last_action = some (.loc op c r)) : auditE s = .ok s :=
  auditE_eq_ok_of_checks (audit_permutation_ok hperm)
    (audit_rot_maps_ok_local hN hop (by omega) hreg hla)
    (audit_roundtrip_ok_local hN hop hr hreg hla hperm.1)

/-! ### perturb: safety and structure of the drawn moves -/

/-- A drawn perturb move: valid op id, radius 1 or 2, and each center
component inside the closed interval [-k + radius, k - radius] drawn by
randint, which is exactly the set of centers whose radius cube stays inside
the lattice. -/
def validDrawnMove (N : ℕ) (mv : ℕ × Vec3 × ℤ) : Prop :=
  mv.1 < 24 ∧ (mv.2.2 = 1 ∨ mv.2.2 = 2) ∧
  -((N / 2 : ℕ) : ℤ) + mv.2.2 ≤ mv.2.1.1 ∧
    mv.2.1.1 ≤ ((N / 2 : ℕ) : ℤ) - mv.2.2 ∧
  -((N / 2 : ℕ) : ℤ) + mv.2.2 ≤ mv.2.1.2.1 ∧
    mv.2.1.2.1 ≤ ((N / 2 : ℕ) : ℤ) - mv.2.2 ∧
  -((N / 2 : ℕ) : ℤ) + mv.2.2 ≤ mv.2.1.2.2 ∧
    mv.2.1.2.2 ≤ ((N / 2 : ℕ) : ℤ) - mv.2.2 ∧
  RegionOK N mv.2.1 mv.2.2

instance (N : ℕ) (mv : ℕ × Vec3 × ℤ) : Decidable (validDrawnMove N mv) := by
  unfold validDrawnMove; infer_instance

/-- One local move followed by the audit, the unit of the perturb loop. -/
def applyMoveAudited (s : EngineState) (mv : ℕ × Vec3 × ℤ) :
    Except Err EngineState := do
  let s1 ← apply_local s mv.1 mv.2.1 mv.2.2
  auditE s1

/-- Sequential audited application of a list of local moves. -/
def applyMovesAudited (s : EngineState) :
    List (ℕ × Vec3 × ℤ) → Except Err EngineState
  | [] => .ok s
  | mv :: rest => do
    let s1 ← applyMoveAudited s mv
    applyMovesAudited s1 rest

theorem applyMoveAudited_ok {s : EngineState} {mv : ℕ × Vec3 × ℤ}
    (hN : s.N % 2 = 1) (hperm : isPermGrid (s.N ^ 3) s.grid)
    (hop : mv.1 < 24) (hr : 1 ≤ mv.2.2) (hreg : RegionOK s.N mv.2.1 mv.2.2) :
    applyMoveAudited s mv = .ok { s with
      grid := applyLocalScatter (local_mapping s.N mv.1 mv.2.1 mv.2.2) s.grid,
      last_op_id := none,
      last_action := some (.loc mv.1 mv.2.1 mv.2.2) } := by
  unfold applyMoveAudited
  rw [apply_local_eq_ok hop hr hreg, ok_bind]
  exact auditE_ok_local hN
    (isPermGrid_applyLocalScatter hN hop (by omega) hreg hperm)
    hop hr hreg rfl

theorem randint_ok {lo hi : ℤ} (g : Rng) (h : lo ≤ hi) :
    randint g lo hi
      = .ok (lo + ((g 0 % (hi - lo + 1).toNat : ℕ) : ℤ), rngNext g) := by
  rw [randint, if_neg (by omega)]

theorem randint_val_bounds {lo hi : ℤ} (g : Rng) (h : lo ≤ hi) :
    lo ≤ lo + ((g 0 % (hi - lo + 1).toNat : ℕ) : ℤ) ∧
    lo + ((g 0 % (hi - lo + 1).toNat : ℕ) : ℤ) ≤ hi := by
  have hpos : 0 < (hi - lo + 1).toNat := by omega
  have hlt := Nat.mod_lt (g 0) hpos
  constructor <;> omega

theorem perturbStep_ok_aux {s : EngineState} (hN : s.N % 2 = 1) {op : ℕ}
    (hop : op < 24) {radius : ℤ} (h1 : 1 ≤ radius) (h2 : radius ≤ 2)
    (hperm : isPermGrid (s.N ^ 3) s.grid) (g5 : Rng) {cx cy cz : ℤ}
    (hcx1 : -((s.N / 2 : ℕ) : ℤ) + radius ≤ cx)
    (hcx2 : cx ≤ ((s.N / 2 : ℕ) : ℤ) - radius)
    (hcy1 : -((s.N / 2 : ℕ) : ℤ) + radius ≤ cy)
    (hcy2 : cy ≤ ((s.N / 2 : ℕ) : ℤ) - radius)
    (hcz1 : -((s.N / 2 : ℕ) : ℤ) + radius ≤ cz)
    (hcz2 : cz ≤ ((s.N / 2 : ℕ) : ℤ) - radius) :
    ∃ mv g2 s2,
      (do
        let s1 ← apply_local s op (cx, cy, cz) radius
        let s2 ← auditE s1
        (.ok (s2, g5) : Except Err (EngineState × Rng))) = .ok (s2, g2) ∧
      validDrawnMove s.N mv ∧ applyMoveAudited s mv = .ok s2 ∧
      isPermGrid (s.N ^ 3) s2.grid ∧ s2.N = s.N := by
  have hreg : RegionOK s.N (cx, cy, cz) radius := by
    have hx : |cx| ≤ ((s.N / 2 : ℕ) : ℤ) - radius := abs_le.mpr ⟨by omega, by omega⟩
    have hy : |cy| ≤ ((s.N / 2 : ℕ) : ℤ) - radius := abs_le.mpr ⟨by omega, by omega⟩
    have hz : |cz| ≤ ((s.N / 2 : ℕ) : ℤ) - radius := abs_le.mpr ⟨by omega, by omega⟩
    exact ⟨by dsimp only; omega, by dsimp only; omega, by dsimp only; omega⟩
  have hperm2 := isPermGrid_applyLocalScatter hN hop (by omega) hreg hperm
  refine ⟨(op, (cx, cy, cz), radius), g5,
    { s with grid := applyLocalScatter (local_mapping s.N op (cx, cy, cz) radius) s.grid,
             last_op_id := none,
             last_action := some (.loc op (cx, cy, cz) radius) },
    ?_, ?_, ?_, hperm2, rfl⟩
  case _ =>
    have haud := @auditE_ok_local
      { s with grid := applyLocalScatter (local_mapping s.N op (cx, cy, cz) radius) s.grid,
               last_op_id := none,
               last_action := some (.loc op (cx, cy, cz) radius) }
      op (cx, cy, cz) radius hN hperm2 hop h1 hreg rfl
    rw [apply_local_eq_ok hop h1 hreg, ok_bind, haud, ok_bind]
  case _ =>
    exact ⟨hop, by dsimp only; omega, hcx1, hcx2, hcy1, hcy2, hcz1, hcz2, hreg⟩
  case _ =>
    have haud := @auditE_ok_local
      { s with grid := applyLocalScatter (local_mapping s.N op (cx, cy, cz) radius) s.grid,
               last_op_id := none,
               last_action := some (.loc op (cx, cy, cz) radius) }
      op (cx, cy, cz) radius hN hperm2 hop h1 hreg rfl
    rw [applyMoveAudited]
    rw [apply_local_eq_ok hop h1 hreg, ok_bind]
    exact haud

/-- One perturb iteration on a valid engine with N at least 5 succeeds, is
one audited local move with a valid drawn op, radius and center, and keeps
the permutation invariant. -/
theorem perturbStep_ok {s : EngineState} (hN : s.N % 2 = 1) (hN5 : 5 ≤ s.N)
    (hperm : isPermGrid (s.N ^ 3) s.grid) (g : Rng) :
    ∃ mv g2 s2, perturbStep s g = .ok (s2, g2) ∧ validDrawnMove s.N mv ∧
      applyMoveAudited s mv = .ok s2 ∧
      isPermGrid (s.N ^ 3) s2.grid ∧ s2.N = s.N := by
  have hk : 2 ≤ s.N / 2 := by omega
  have hop : g 0 % 24 < 24 := Nat.mod_lt _ (by omega)
  unfold perturbStep
  dsimp only [randrange, choice12]
  generalize hrdef : (if rngNext g 0 % 2 = 0 then (1 : ℤ) else 2) = radius
  have h12 : 1 ≤ radius ∧ radius ≤ 2 := by
    rw [← hrdef]; split <;> omega
  have hlh : -((s.N / 2 : ℕ) : ℤ) + radius ≤ ((s.N / 2 : ℕ) : ℤ) - radius := by
    omega
  rw [randint_ok _ hlh, ok_bind]
  dsimp only
  rw [randint_ok _ hlh, ok_bind]
  dsimp only
  rw [randint_ok _ hlh, ok_bind]
  dsimp only
  obtain ⟨hcx1, hcx2⟩ := randint_val_bounds (rngNext (rngNext g)) hlh
  obtain ⟨hcy1, hcy2⟩ := randint_val_bounds (rngNext (rngNext (rngNext g))) hlh
  obtain ⟨hcz1, hcz2⟩ :=
    randint_val_bounds (rngNext (rngNext (rngNext (rngNext g)))) hlh
  exact perturbStep_ok_aux hN hop h12.1 h12.2 hperm _
    hcx1 hcx2 hcy1 hcy2 hcz1 hcz2

theorem perturb_ok_aux : ∀ (steps : ℕ) (s : EngineState) (g : Rng),
    s.N % 2 = 1 → 5 ≤ s.N → isPermGrid (s.N ^ 3) s.grid →
    ∃ moves : List (ℕ × Vec3 × ℤ),
      moves.length = steps ∧ (∀ mv ∈ moves, validDrawnMove s.N mv) ∧
      perturb s steps g = applyMovesAudited s moves ∧
      ∃ s1, perturb s steps g = .ok s1 ∧ isPermGrid (s.N ^ 3) s1.grid ∧
        s1.N = s.N
  | 0, s, g, _, _, hperm => ⟨[], rfl, by simp, rfl, s, rfl, hperm, rfl⟩
  | n + 1, s, g, hN, hN5, hperm => by
    obtain ⟨mv, g2, s2, hstep, hvalid, happly, hperm2, hNeq⟩ :=
      perturbStep_ok hN hN5 hperm g
    obtain ⟨moves, hlen, hval, heq, s1, hok, hperm1, hN1⟩ :=
      perturb_ok_aux n s2 g2 (by rw [hNeq]; exact hN)
        (by rw [hNeq]; exact hN5) (by rw [hNeq]; exact hperm2)
    refine ⟨mv :: moves, by simp [hlen], ?_, ?_, s1, ?_, ?_, by rw [hN1, hNeq]⟩
    · intro mv' hmv'
      rcases List.mem_cons.mp hmv' with rfl | hmem
      · exact hvalid
      · exact hNeq ▸ hval mv' hmem
    · show (do
        let p ← perturbStep s g
        perturb p.1 n p.2) = applyMovesAudited s (mv :: moves)
      rw [hstep, ok_bind]
      show perturb s2 n g2 = applyMovesAudited s (mv :: moves)
      rw [heq]
      show applyMovesAudited s2 moves
        = (do
            let s1 ← applyMoveAudited s mv
            applyMovesAudited s1 moves)
      rw [happly, ok_bind]
    · show (do
        let p ← perturbStep s g
        perturb p.1 n p.2) = .ok s1
      rw [hstep, ok_bind]
      exact hok
    · rw [← hNeq]
      exact hperm1

/-- C4 (amended to N at least 5): perturb never raises, applies exactly
steps audited local moves, each with op id in [0, 24), radius 1 or 2, and a
center drawn from the interval cube [-k + radius, k - radius] ** 3, which is
exactly the set of centers keeping the radius cube inside the lattice, and
leaves the engine a permutation.  Uniformity of the draws is a property of
the stdlib generator and is modelled here as the support of the drawn
values. -/
theorem claim_perturb_applies_audited_moves (s : EngineState) (steps : ℕ)
    (g : Rng) (hN : s.N % 2 = 1) (hN5 : 5 ≤ s.N)
    (hperm : isPermGrid (s.N ^ 3) s.grid) :
    ∃ moves : List (ℕ × Vec3 × ℤ),
      moves.length = steps ∧ (∀ mv ∈ moves, validDrawnMove s.N mv) ∧
      perturb s steps g = applyMovesAudited s moves ∧
      ∃ s1, perturb s steps g = .ok s1 ∧ isPermGrid (s.N ^ 3) s1.grid ∧
        s1.N = s.N :=
  perturb_ok_aux steps s g hN hN5 hperm

set_option maxRecDepth 4000 in
/-- Witness for the amended C4 at N = 5, one step, a concrete stream. -/
theorem claim_perturb_applies_audited_moves_witness :
    ∃ moves : List (ℕ × Vec3 × ℤ),
      moves.length = 1 ∧ (∀ mv ∈ moves, validDrawnMove 5 mv) ∧
      perturb (construct 5) 1 (fun _ => 3) = applyMovesAudited (construct 5) moves ∧
      ∃ s1, perturb (construct 5) 1 (fun _ => 3) = .ok s1 ∧
        isPermGrid (5 ^ 3) s1.grid ∧ s1.N = 5 :=
  claim_perturb_applies_audited_moves (construct 5) 1 (fun _ => 3)
    (by decide) (by decide) (by decide)

/-- Counterexample to C4 as stated: at N = 3 a draw stream that picks
radius 2 makes the center draw an empty randint range, so perturb raises
ValueError (the claim asserts completion for every N odd and at least 3 and
every seed). -/
theorem claim_perturb_counterexample :
    perturb (construct 3) 1 (fun _ => 1) = .error .invalidArgument := by
  rfl

/-! ### energy/energies.py -/

/-- The three positive axis directions used to count each undirected
6-neighbor edge once. -/
def posDirs : List Vec3 := [(1, 0, 0), (0, 1, 0), (0, 0, 1)]

/-- neighbor_disagreement_energy of energy/energies.py: the number of
lattice edges whose occupying tokens do not have 6-neighboring home
coordinates. -/
def neighbor_disagreement_energy (s : EngineState) : ℤ :=
  s.grid.enum.foldl
    (fun E p =>
      let xyz := (index_to_coord s.N).getD p.1 (0, 0, 0)
      let ha := (index_to_coord s.N).getD p.2 (0, 0, 0)
      posDirs.foldl
        (fun E d =>
          let nb : Vec3 := (xyz.1 + d.1, xyz.2.1 + d.2.1, xyz.2.2 + d.2.2)
          match coord_to_index s.N nb with
          | none => E
          | some j =>
            let hb := (index_to_coord s.N).getD (s.grid.getD j 0) (0, 0, 0)
            if |ha.1 - hb.1| + |ha.2.1 - hb.2.1| + |ha.2.2 - hb.2.2| ≠ 1
            then E + 1 else E)
        E)
    0

/-- home_distance_smooth_energy of energy/energies.py: the sum over tokens
of the squared Euclidean distance to the home coordinate.  The float
accumulator of the source holds exact small integers here. -/
def home_distance_smooth_energy (s : EngineState) : ℚ :=
  s.grid.enum.foldl
    (fun E p =>
      let xyz := (index_to_coord s.N).getD p.1 (0, 0, 0)
      let h := (index_to_coord s.N).getD p.2 (0, 0, 0)
      let dx := xyz.1 - h.1
      let dy := xyz.2.1 - h.2.1
      let dz := xyz.2.2 - h.2.2
      E + ((dx * dx + dy * dy + dz * dz : ℤ) : ℚ))
    0

/-- The fixed Phase-3 energy _default_energy of explorer/recovery.py; the
float literal 0.2 is modelled as the exact rational 1 / 5. -/
def default_energy (s : EngineState) : ℚ :=
  (neighbor_disagreement_energy s : ℚ) + 1 / 5 * home_distance_smooth_energy s

/-! ### explorer/anneal_local.py -/

/-- _random_valid_local_params: radius 1 or 2, then three randint draws for
the center components over the in-bounds interval. -/
def random_valid_local_params (g : Rng) (k : ℕ) :
    Except Err ((Vec3 × ℤ) × Rng) := do
  let (radius, g1) := choice12 g
  let lo : ℤ := -(k : ℤ) + radius
  let hi : ℤ := (k : ℤ) - radius
  let (cx, g2) ← randint g1 lo hi
  let (cy, g3) ← randint g2 lo hi
  let (cz, g4) ← randint g3 lo hi
  .ok (((cx, cy, cz), radius), g4)

/-- Temperature schedules: a constant, a finite sequence, or a function of
the step (_temperature in explorer/anneal_local.py).  Temperatures are
reals; float arithmetic is modelled exactly. -/
inductive TempSchedule where
  | const (t : ℝ) : TempSchedule
  | seq (l : List ℝ) : TempSchedule
  | fn (f : ℕ → ℝ) : TempSchedule

/-- _temperature: a sequence index clamps to the last entry beyond its
length (the IndexError an empty sequence raises in the source is modelled
as 0; no caller passes an empty sequence). -/
def temperature : TempSchedule → ℕ → ℝ
  | .const t, _ => t
  | .seq l, step => if l.length ≤ step then l.getLastD 0 else l.getD step 0
  | .fn f, step => f step

/-- Association-list counter bump, modelling dict.get(h, 0) + 1 insertion
keyed by insertion order. -/
def bumpCount {α : Type} [BEq α] (m : List (α × ℕ)) (key : α) :
    List (α × ℕ) :=
  match (m.find? fun p => p.1 == key).map Prod.snd with
  | some v => m.map fun p => if p.1 == key then (p.1, v + 1) else p
  | none => m ++ [(key, 1)]

/-- Association-list lookup. -/
def lookupA {α : Type} [BEq α] (m : List (α × ℕ)) (key : α) : Option ℕ :=
  (m.find? fun p => p.1 == key).map Prod.snd

/-- Running state of the annealing loop of explore_anneal_local. -/
structure AnnealState where
  engine : EngineState
  rng : Rng
  energies : List ℚ
  bestE : ℚ
  bestStep : ℕ
  lastImprove : ℕ
  firstRepeat : Option ℕ
  repeats : ℕ
  accepted : ℕ
  proposed : ℕ
  firstSeen : List (List ℕ × ℕ)
  visitCounts : List (List ℕ × ℕ)
  hashes : Option (List (List ℕ))
  stoppedStep : Option ℕ

/-- Per-step bookkeeping shared by the accept and reject branches: hash the
engine, log it, bump the visit counter, track first repeats, and check the
early-stop hash.  A fresh stoppedStep of none means the loop continues. -/
def annealFinish (stopHash : Option (List ℕ)) (step : ℕ)
    (engine2 : EngineState) (g : Rng) (energies2 : List ℚ) (accepted2 : ℕ)
    (bestE2 : ℚ) (bestStep2 lastImprove2 proposed2 : ℕ) (ls : AnnealState) :
    AnnealState :=
  let h := hashB engine2
  let hashes2 := ls.hashes.map fun l => l ++ [h]
  let visit2 := bumpCount ls.visitCounts h
  let seenBefore := (lookupA ls.firstSeen h).isSome
  { engine := engine2, rng := g, energies := energies2, bestE := bestE2,
    bestStep := bestStep2, lastImprove := lastImprove2,
    firstRepeat := if seenBefore then
        (match ls.firstRepeat with | none => some step | some v => some v)
      else ls.firstRepeat,
    repeats := if seenBefore then ls.repeats + 1 else ls.repeats,
    accepted := accepted2, proposed := proposed2,
    firstSeen := if seenBefore then ls.firstSeen else ls.firstSeen ++ [(h, step)],
    visitCounts := visit2, hashes := hashes2,
    stoppedStep := if stopHash = some h then some step else none }

/-- The reject branch of the annealing loop: revert through inverse_local,
re-audit, and record the previous energy unchanged. -/
def annealReject (stopHash : Option (List ℕ)) (step : ℕ) (op : ℕ)
    (params : Vec3 × ℤ) (s2 : EngineState) (g : Rng) (Eprev : ℚ)
    (proposed2 : ℕ) (ls : AnnealState) : Except Err AnnealState := do
  let inv ← inverse_local op params.1 params.2
  let s3 ← apply_local s2 inv.1 inv.2.1 inv.2.2
  let s4 ← auditE s3
  .ok (annealFinish stopHash step s4 g (ls.energies ++ [Eprev]) ls.accepted
    ls.bestE ls.bestStep ls.lastImprove proposed2 ls)

open Classical in
/-- One iteration of the explore_anneal_local loop: propose a uniformly
random local move, apply and audit it, score it, validate T, then accept
unconditionally when dE is nonpositive, reject when dE is positive and T is
zero, and otherwise accept exactly when the uniform draw lies below
exp(-dE / T).  The accept and reject tails are annealFinish and
annealReject. -/
noncomputable def annealStep (sched : TempSchedule)
    (energyFn : EngineState → ℚ) (stopHash : Option (List ℕ)) (step : ℕ)
    (ls : AnnealState) : Except Err AnnealState := do
  let proposed2 := ls.proposed + 1
  let (op, g1) := randrange ls.rng 24
  let pg ← random_valid_local_params g1 (ls.engine.N / 2)
  let params := pg.1
  let g2 := pg.2
  let s1 ← apply_local ls.engine op params.1 params.2
  let s2 ← auditE s1
  let E1 := energyFn s2
  let Eprev := ls.energies.getLastD 0
  let dE := E1 - Eprev
  let T := temperature sched step
  if T < 0 then .error .invalidArgument
  else if dE ≤ 0 then
    .ok (annealFinish stopHash step s2 g2 (ls.energies ++ [E1])
      (ls.accepted + 1)
      (if E1 < ls.bestE then E1 else ls.bestE)
      (if E1 < ls.bestE then step else ls.bestStep)
      (if E1 < ls.bestE then step else ls.lastImprove) proposed2 ls)
  else if T = 0 then
    annealReject stopHash step op params s2 g2 Eprev proposed2 ls
  else
    let ug := randfloat g2
    if ((ug.1 : ℝ)) < Real.exp (-((dE : ℚ) : ℝ) / T) then
      .ok (annealFinish stopHash step s2 ug.2 (ls.energies ++ [E1])
        (ls.accepted + 1)
        (if E1 < ls.bestE then E1 else ls.bestE)
        (if E1 < ls.bestE then step else ls.bestStep)
        (if E1 < ls.bestE then step else ls.lastImprove) proposed2 ls)
    else
      annealReject stopHash step op params s2 ug.2 Eprev proposed2 ls

/-- The for-loop of explore_anneal_local with its early break on the stop
hash, as fuel recursion over the remaining steps. -/
noncomputable def annealLoop (sched : TempSchedule)
    (energyFn : EngineState → ℚ) (stopHash : Option (List ℕ)) :
    ℕ → ℕ → AnnealState → Except Err AnnealState
  | 0, _, ls => .ok ls
  | fuel + 1, step, ls => do
    let ls2 ← annealStep sched energyFn stopHash step ls
    if ls2.stoppedStep.isSome then .ok ls2
    else annealLoop sched energyFn stopHash fuel (step + 1) ls2

/-- last_change_step: the last index where consecutive energies differ. -/
def lastChange (es : List ℚ) : ℕ :=
  (List.range' 1 (es.length - 1)).foldl
    (fun acc i => if es.getD i 0 ≠ es.getD (i - 1) 0 then i else acc) 0

/-- The summary dictionary returned by explore_anneal_local.  The init_seed
echo field is omitted: seeds are modelled as abstract streams. -/
structure AnnealResult where
  N : ℕ
  steps : ℕ
  steps_run : ℕ
  accepted : ℕ
  proposed : ℕ
  acceptance_rate : ℚ
  energies : List ℚ
  E0 : ℚ
  E_final : ℚ
  best_energy : ℚ
  best_step : ℕ
  last_improve_step : ℕ
  last_change_step : ℕ
  unique_state_count : ℕ
  first_repeat_step : Option ℕ
  repeat_visits : ℕ
  final_hash : List ℕ
  final_grid : List ℕ
  visit_counts : List (List ℕ × ℕ)
  stopped_step : Option ℕ
  hashes : Option (List (List ℕ))

/-- explore_anneal_local of explorer/anneal_local.py.  The missing
energy_fn ValueError (ConfigurationError in the specification taxonomy) and
the init_grid length ValueError are both invalidArgument here. -/
noncomputable def explore_anneal_local (N steps : ℕ) (g : Rng)
    (sched : TempSchedule) (energyFn : Option (EngineState → ℚ))
    (init_grid : Option (List ℕ)) (stop_hash : Option (List ℕ))
    (return_hashes : Bool) : Except Err AnnealResult := do
  let energy ← match energyFn with
    | none => Except.error Err.invalidArgument
    | some f => Except.ok f
  let engine0 ← build_engine N
  let engine1 ← match init_grid with
    | some ig =>
      if ig.length ≠ N ^ 3 then Except.error Err.invalidArgument
      else auditE { engine0 with
        grid := ig, last_op_id := none, last_action := none }
    | none => Except.ok (randomize engine0 g)
  let h0 := hashB engine1
  let E0 := energy engine1
  let stopped0 : Option ℕ := if stop_hash = some h0 then some 0 else none
  let hashes0 : Option (List (List ℕ)) :=
    if return_hashes then some [h0] else none
  if stopped0 = some 0 then
    .ok { N := N, steps := steps, steps_run := 0, accepted := 0,
          proposed := 0, acceptance_rate := 0, energies := [E0], E0 := E0,
          E_final := E0, best_energy := E0, best_step := 0,
          last_improve_step := 0, last_change_step := 0,
          unique_state_count := 1, first_repeat_step := none,
          repeat_visits := 0, final_hash := hashB engine1,
          final_grid := engine1.grid, visit_counts := [(h0, 1)],
          stopped_step := some 0, hashes := hashes0 }
  else do
    let ls0 : AnnealState :=
      { engine := engine1, rng := g, energies := [E0], bestE := E0,
        bestStep := 0, lastImprove := 0, firstRepeat := none, repeats := 0,
        accepted := 0, proposed := 0, firstSeen := [(h0, 0)],
        visitCounts := [(h0, 1)], hashes := hashes0, stoppedStep := none }
    let ls ← annealLoop sched energy stop_hash steps 1 ls0
    let steps_run := match ls.stoppedStep with | some t => t | none => steps
    .ok { N := N, steps := steps, steps_run := steps_run,
          accepted := ls.accepted, proposed := ls.proposed,
          acceptance_rate :=
            if ls.proposed = 0 then 0 else (ls.accepted : ℚ) / ls.proposed,
          energies := ls.energies, E0 := E0,
          E_final := ls.energies.getLastD 0, best_energy := ls.bestE,
          best_step := ls.bestStep, last_improve_step := ls.lastImprove,
          last_change_step := lastChange ls.energies,
          unique_state_count := ls.firstSeen.length,
          first_repeat_step := ls.firstRepeat, repeat_visits := ls.repeats,
          final_hash := hashB ls.engine, final_grid := ls.engine.grid,
          visit_counts := ls.visitCounts, stopped_step := ls.stoppedStep,
          hashes := ls.hashes }

/-! ### explorer/recovery.py -/

/-- _exp_cooling of explorer/recovery.py: exponential schedule from T0 to
Tmin over the given number of steps.  Its argument validations pass at the
fixed call site (T0 = 3, Tmin = 0.05, steps = 3000) and are omitted. -/
noncomputable def exp_cooling (T0 Tmin : ℝ) (steps : ℕ) : ℕ → ℝ :=
  let r : ℝ :=
    if Tmin = 0 then 0
    else if 0 < T0 then (Tmin / T0) ^ ((1 : ℝ) / steps) else 0
  fun step =>
    if step = 0 then T0
    else if steps ≤ step then Tmin
    else T0 * r ^ step

/-- The summary block produced by _stats; an empty input produces the
count-only dictionary, modelled with zeroed statistics. -/
structure StatsR where
  n : ℕ
  mean : ℚ
  median : ℚ
  min : ℚ
  max : ℚ

/-- statistics.median over rationals, exact. -/
def medianQ (l : List ℚ) : ℚ :=
  let s := l.insertionSort (· ≤ ·)
  let n := s.length
  if n = 0 then 0
  else if n % 2 = 1 then s.getD (n / 2) 0
  else (s.getD (n / 2 - 1) 0 + s.getD (n / 2) 0) / 2

/-- _stats of explorer/recovery.py. -/
def statsOf (l : List ℚ) : StatsR :=
  if l.isEmpty then ⟨0, 0, 0, 0, 0⟩
  else
    let s := l.insertionSort (· ≤ ·)
    ⟨l.length, l.sum / l.length, medianQ l, s.getD 0 0, s.getLastD 0⟩

/-- Python max over a nonempty list of rationals. -/
def maxQ : List ℚ → ℚ
  | [] => 0
  | h :: t => t.foldl max h

/-- One per-trial record of recovery_experiment. -/
structure TrialRecord where
  trial : ℕ
  basin_hash : List ℕ
  basin_energy : ℚ
  E_after_noise : ℚ
  perturb_steps : ℕ
  recovered_same_hash : Bool
  recovery_steps : Option ℕ
  final_hash : List ℕ
  final_energy : ℚ
  energy_overshoot : ℚ

/-- The aggregate result of recovery_experiment.  The fixed metadata
echoes (temperature and energy weights) are compile-time constants of the
source and are omitted; basin_changes is keyed by the full hash pair where
the source keys its summary by 12-character prefixes of the hex digests. -/
structure RecoveryResult where
  N : ℕ
  trials : ℕ
  perturb_steps : ℕ
  anneal_steps : ℕ
  recovery_rate : ℚ
  recovery_time_mean : Option ℚ
  recovery_time_median : Option ℚ
  recovery_time_n : ℕ
  final_minus_basin : StatsR
  perturbed_minus_basin : StatsR
  overshoot : StatsR
  basin_changes : List ((List ℕ × List ℕ) × ℕ)
  per_trial : List TrialRecord

/-- One trial of recovery_experiment: init, anneal into a basin, perturb,
re-anneal with early stop on the basin hash, and record the outcome. -/
noncomputable def recoveryTrial (N perturb_steps : ℕ) (seedStream : ℕ → Rng)
    (seed : ℕ) (init_seed : Option ℕ) (sched : TempSchedule)
    (anneal_steps : ℕ) (t : ℕ) : Except Err TrialRecord := do
  let init_engine ← build_engine N
  let init_engine2 := match init_seed with
    | some s0 => randomize init_engine (seedStream (s0 + t))
    | none => init_engine
  let a1 ← explore_anneal_local N anneal_steps
    (seedStream (seed + 10000 + t)) sched (some default_energy)
    (some init_engine2.grid) none false
  let basin_hash := a1.final_hash
  let basin_energy := a1.E_final
  let basin_grid := a1.final_grid
  let noisyBase ← build_engine N
  let noisy1 ← auditE { noisyBase with
    grid := basin_grid, last_op_id := none, last_action := none }
  let noisy2 ← perturb noisy1 perturb_steps (seedStream (seed + 20000 + t))
  let E_after_noise := default_energy noisy2
  let a2 ← explore_anneal_local N anneal_steps
    (seedStream (seed + 30000 + t)) sched (some default_energy)
    (some noisy2.grid) (some basin_hash) false
  let recovered := a2.stopped_step.isSome || (a2.final_hash == basin_hash)
  let overshoot :=
    if a2.energies.isEmpty then 0 else maxQ a2.energies - basin_energy
  .ok { trial := t, basin_hash := basin_hash, basin_energy := basin_energy,
        E_after_noise := E_after_noise, perturb_steps := perturb_steps,
        recovered_same_hash := recovered, recovery_steps := a2.stopped_step,
        final_hash := a2.final_hash, final_energy := a2.E_final,
        energy_overshoot := overshoot }

/-- The trial loop of recovery_experiment, accumulating per-trial records
in order. -/
noncomputable def recoveryTrials (N perturb_steps : ℕ) (seedStream : ℕ → Rng)
    (seed : ℕ) (init_seed : Option ℕ) (sched : TempSchedule)
    (anneal_steps : ℕ) :
    ℕ → ℕ → List TrialRecord → Except Err (List TrialRecord)
  | 0, _, acc => .ok acc
  | n + 1, t, acc => do
    let tr ← recoveryTrial N perturb_steps seedStream seed init_seed sched
      anneal_steps t
    recoveryTrials N perturb_steps seedStream seed init_seed sched
      anneal_steps n (t + 1) (acc ++ [tr])

/-- recovery_experiment of explorer/recovery.py.  Seeds are abstract draw
streams: seedStream plays the role of random.Random applied to the derived
integer seeds of the source. -/
noncomputable def recovery_experiment (N trials perturb_steps : ℕ)
    (seedStream : ℕ → Rng) (seed : ℕ) (init_seed : Option ℕ) :
    Except Err RecoveryResult := do
  if N < 1 then Except.error Err.invalidArgument
  else if trials < 1 then Except.error Err.invalidArgument
  else do
    let anneal_steps := 3000
    let sched := TempSchedule.fn (exp_cooling 3 (1 / 20) anneal_steps)
    let per_trial ← recoveryTrials N perturb_steps seedStream seed init_seed
      sched anneal_steps trials 0 []
    let recovered_flags := per_trial.map (fun tr => tr.recovered_same_hash)
    let recovery_times := per_trial.filterMap fun tr =>
      if tr.recovered_same_hash then
        (tr.recovery_steps.map fun st => ((st : ℚ)))
      else none
    let final_minus_basin :=
      per_trial.map fun tr => tr.final_energy - tr.basin_energy
    let perturbed_minus_basin :=
      per_trial.map fun tr => tr.E_after_noise - tr.basin_energy
    let overshoots := per_trial.map fun tr => tr.energy_overshoot
    let basin_changes := per_trial.foldl
      (fun m tr => bumpCount m (tr.basin_hash, tr.final_hash)) []
    .ok { N := N, trials := trials, perturb_steps := perturb_steps,
          anneal_steps := anneal_steps,
          recovery_rate :=
            (recovered_flags.count true : ℚ) / recovered_flags.length,
          recovery_time_mean := if recovery_times.isEmpty then none
            else some (recovery_times.sum / recovery_times.length),
          recovery_time_median := if recovery_times.isEmpty then none
            else some (medianQ recovery_times),
          recovery_time_n := recovery_times.length,
          final_minus_basin := statsOf final_minus_basin,
          perturbed_minus_basin := statsOf perturbed_minus_basin,
          overshoot := statsOf overshoots,
          basin_changes := basin_changes, per_trial := per_trial }

/-! ### explorer/anneal_local.py: success and branch lemmas -/

/-- The state produced by a successful apply_local, named for reuse. -/
def localStep (e : EngineState) (op : ℕ) (c : Vec3) (r : ℤ) : EngineState :=
  { e with grid := applyLocalScatter (local_mapping e.N op c r) e.grid,
           last_op_id := none, last_action := some (.loc op c r) }

theorem apply_local_ok_localStep {s : EngineState} {op : ℕ} {c : Vec3}
    {r : ℤ} (hop : op < 24) (hr : 1 ≤ r) (hreg : RegionOK s.N c r) :
    apply_local s op c r = .ok (localStep s op c r) :=
  apply_local_eq_ok hop hr hreg

theorem isPermGrid_localStep {e : EngineState} {op : ℕ} {c : Vec3} {r : ℤ}
    (hN : e.N % 2 = 1) (hperm : isPermGrid (e.N ^ 3) e.grid) (hop : op < 24)
    (hr : 1 ≤ r) (hreg : RegionOK e.N c r) :
    isPermGrid ((localStep e op c r).N ^ 3) (localStep e op c r).grid :=
  isPermGrid_applyLocalScatter hN hop (by omega) hreg hperm

theorem auditE_localStep {e : EngineState} {op : ℕ} {c : Vec3} {r : ℤ}
    (hN : e.N % 2 = 1) (hperm : isPermGrid (e.N ^ 3) e.grid) (hop : op < 24)
    (hr : 1 ≤ r) (hreg : RegionOK e.N c r) :
    auditE (localStep e op c r) = .ok (localStep e op c r) :=
  auditE_ok_local hN (isPermGrid_localStep hN hperm hop hr hreg) hop hr hreg
    rfl

/-- RegionOK from the componentwise randint interval bounds. -/
theorem regionOK_of_box {N : ℕ} {cx cy cz radius : ℤ}
    (hcx1 : -((N / 2 : ℕ) : ℤ) + radius ≤ cx)
    (hcx2 : cx ≤ ((N / 2 : ℕ) : ℤ) - radius)
    (hcy1 : -((N / 2 : ℕ) : ℤ) + radius ≤ cy)
    (hcy2 : cy ≤ ((N / 2 : ℕ) : ℤ) - radius)
    (hcz1 : -((N / 2 : ℕ) : ℤ) + radius ≤ cz)
    (hcz2 : cz ≤ ((N / 2 : ℕ) : ℤ) - radius) :
    RegionOK N (cx, cy, cz) radius := by
  have hx : |cx| ≤ ((N / 2 : ℕ) : ℤ) - radius := abs_le.mpr ⟨by omega, by omega⟩
  have hy : |cy| ≤ ((N / 2 : ℕ) : ℤ) - radius := abs_le.mpr ⟨by omega, by omega⟩
  have hz : |cz| ≤ ((N / 2 : ℕ) : ℤ) - radius := abs_le.mpr ⟨by omega, by omega⟩
  exact ⟨by dsimp only; omega, by dsimp only; omega, by dsimp only; omega⟩

/-- _random_valid_local_params never raises once the half-width k is at
least 2, and its draws satisfy the interval bounds. -/
theorem random_valid_local_params_ok (g : Rng) (k : ℕ) (hk : 2 ≤ k) :
    ∃ (cx cy cz radius : ℤ) (g4 : Rng),
      random_valid_local_params g k = .ok (((cx, cy, cz), radius), g4) ∧
      (radius = 1 ∨ radius = 2) ∧
      -(k : ℤ) + radius ≤ cx ∧ cx ≤ (k : ℤ) - radius ∧
      -(k : ℤ) + radius ≤ cy ∧ cy ≤ (k : ℤ) - radius ∧
      -(k : ℤ) + radius ≤ cz ∧ cz ≤ (k : ℤ) - radius := by
  unfold random_valid_local_params
  dsimp only [choice12]
  generalize hrdef : (if g 0 % 2 = 0 then (1 : ℤ) else 2) = radius
  have h12 : radius = 1 ∨ radius = 2 := by
    rw [← hrdef]; split
    · exact Or.inl rfl
    · exact Or.inr rfl
  have hlh : -(k : ℤ) + radius ≤ (k : ℤ) - radius := by
    rcases h12 with h | h <;> omega
  rw [randint_ok _ hlh, ok_bind]
  dsimp only
  rw [randint_ok _ hlh, ok_bind]
  dsimp only
  rw [randint_ok _ hlh, ok_bind]
  obtain ⟨hcx1, hcx2⟩ := randint_val_bounds (rngNext g) hlh
  obtain ⟨hcy1, hcy2⟩ := randint_val_bounds (rngNext (rngNext g)) hlh
  obtain ⟨hcz1, hcz2⟩ :=
    randint_val_bounds (rngNext (rngNext (rngNext g))) hlh
  exact ⟨_, _, _, radius, _, rfl, h12, hcx1, hcx2, hcy1, hcy2, hcz1, hcz2⟩

/-- The reject branch succeeds from any valid proposed state: the inverse
move exists, re-applies, re-audits, and restores the pre-proposal grid; the
recorded energy stream appends the unchanged previous energy and the accept
counter does not move. -/
theorem annealReject_ok (stopHash : Option (List ℕ)) (step : ℕ) (g : Rng)
    (Eprev : ℚ) (proposed2 : ℕ) (ls : AnnealState) (e : EngineState)
    (op : ℕ) (center : Vec3) (radius : ℤ)
    (hN : e.N % 2 = 1) (hperm : isPermGrid (e.N ^ 3) e.grid) (hop : op < 24)
    (hr : 1 ≤ radius) (hreg : RegionOK e.N center radius) :
    ∃ ls2, annealReject stopHash step op (center, radius)
        (localStep e op center radius) g Eprev proposed2 ls = .ok ls2 ∧
      ls2.engine.grid = e.grid ∧ ls2.engine.N = e.N ∧
      ls2.energies = ls.energies ++ [Eprev] ∧ ls2.accepted = ls.accepted := by
  have hinv : inverse_rotation_index op < 24 := inv_rot_lt op hop
  have hperm1 : isPermGrid ((localStep e op center radius).N ^ 3)
      (localStep e op center radius).grid :=
    isPermGrid_localStep hN hperm hop hr hreg
  have hN1 : (localStep e op center radius).N % 2 = 1 := hN
  have hreg1 : RegionOK (localStep e op center radius).N center radius := hreg
  have hg3 : applyLocalScatter
      (local_mapping e.N (inverse_rotation_index op) center radius)
      (applyLocalScatter (local_mapping e.N op center radius) e.grid)
      = e.grid := local_roundtrip_grid hN hop (by omega) hreg hperm.1
  unfold annealReject
  rw [inverse_local_eq_ok hop center radius, ok_bind]
  dsimp only
  rw [apply_local_ok_localStep hinv hr hreg1, ok_bind]
  rw [auditE_localStep hN1 hperm1 hinv hr hreg1, ok_bind]
  refine ⟨_, rfl, ?_, rfl, rfl, rfl⟩
  exact hg3

/-- One annealing step on a valid engine with N odd and at least 5 never
raises when the step temperature is nonnegative, and preserves the lattice
size and the permutation invariant. -/
theorem annealStep_ok (sched : TempSchedule) (energyFn : EngineState → ℚ)
    (stopHash : Option (List ℕ)) (step : ℕ) (ls : AnnealState)
    (hN : ls.engine.N % 2 = 1) (hN5 : 5 ≤ ls.engine.N)
    (hperm : isPermGrid (ls.engine.N ^ 3) ls.engine.grid)
    (hT : 0 ≤ temperature sched step) :
    ∃ ls2, annealStep sched energyFn stopHash step ls = .ok ls2 ∧
      ls2.engine.N = ls.engine.N ∧
      isPermGrid (ls.engine.N ^ 3) ls2.engine.grid := by
  have hk : 2 ≤ ls.engine.N / 2 := by omega
  obtain ⟨cx, cy, cz, radius, g4, hdraw, h12, hcx1, hcx2, hcy1, hcy2,
    hcz1, hcz2⟩ := random_valid_local_params_ok (rngNext ls.rng)
      (ls.engine.N / 2) hk
  have hop : ls.rng 0 % 24 < 24 := Nat.mod_lt _ (by omega)
  have hr : (1 : ℤ) ≤ radius := by rcases h12 with h | h <;> omega
  have hreg : RegionOK ls.engine.N (cx, cy, cz) radius :=
    regionOK_of_box hcx1 hcx2 hcy1 hcy2 hcz1 hcz2
  have hperm1 : isPermGrid (ls.engine.N ^ 3)
      (localStep ls.engine (ls.rng 0 % 24) (cx, cy, cz) radius).grid :=
    isPermGrid_localStep hN hperm hop hr hreg
  unfold annealStep
  dsimp only [randrange]
  rw [hdraw, ok_bind]
  dsimp only
  rw [apply_local_ok_localStep hop hr hreg, ok_bind]
  rw [auditE_localStep hN hperm hop hr hreg, ok_bind]
  rw [if_neg (not_lt.mpr hT)]
  by_cases hdE : energyFn (localStep ls.engine (ls.rng 0 % 24)
      (cx, cy, cz) radius) - ls.energies.getLastD 0 ≤ 0
  · rw [if_pos hdE]
    exact ⟨_, rfl, rfl, hperm1⟩
  · rw [if_neg hdE]
    by_cases hT0 : temperature sched step = 0
    · rw [if_pos hT0]
      obtain ⟨ls2, h1, h2, h3, _, _⟩ := annealReject_ok stopHash step g4
        (ls.energies.getLastD 0) (ls.proposed + 1) ls ls.engine
        (ls.rng 0 % 24) (cx, cy, cz) radius hN hperm hop hr hreg
      exact ⟨ls2, h1, h3, by rw [h2]; exact hperm⟩
    · rw [if_neg hT0]
      by_cases hu : (((randfloat g4).1 : ℚ) : ℝ) < Real.exp
          (-((energyFn (localStep ls.engine (ls.rng 0 % 24)
            (cx, cy, cz) radius) - ls.energies.getLastD 0 : ℚ) : ℝ) /
            temperature sched step)
      · rw [if_pos hu]
        exact ⟨_, rfl, rfl, hperm1⟩
      · rw [if_neg hu]
        obtain ⟨ls2, h1, h2, h3, _, _⟩ := annealReject_ok stopHash step
          (randfloat g4).2 (ls.energies.getLastD 0) (ls.proposed + 1) ls
          ls.engine (ls.rng 0 % 24) (cx, cy, cz) radius hN hperm hop hr hreg
        exact ⟨ls2, h1, h3, by rw [h2]; exact hperm⟩

/-- The annealing loop never raises under a nonnegative schedule and keeps
the lattice size and the permutation invariant, for any fuel. -/
theorem annealLoop_ok (sched : TempSchedule) (energyFn : EngineState → ℚ)
    (stopHash : Option (List ℕ)) (hT : ∀ t, 0 ≤ temperature sched t) :
    ∀ (fuel step : ℕ) (ls : AnnealState), ls.engine.N % 2 = 1 →
      5 ≤ ls.engine.N → isPermGrid (ls.engine.N ^ 3) ls.engine.grid →
      ∃ ls2, annealLoop sched energyFn stopHash fuel step ls = .ok ls2 ∧
        ls2.engine.N = ls.engine.N ∧
        isPermGrid (ls.engine.N ^ 3) ls2.engine.grid
  | 0, _, ls, _, _, hperm => ⟨ls, rfl, rfl, hperm⟩
  | fuel + 1, step, ls, hN, hN5, hperm => by
    obtain ⟨ls2, hstep, hNeq, hperm2⟩ :=
      annealStep_ok sched energyFn stopHash step ls hN hN5 hperm (hT step)
    show ∃ ls3, (do
      let x ← annealStep sched energyFn stopHash step ls
      if x.stoppedStep.isSome then .ok x
      else annealLoop sched energyFn stopHash fuel (step + 1) x)
        = .ok ls3 ∧ ls3.engine.N = ls.engine.N ∧
      isPermGrid (ls.engine.N ^ 3) ls3.engine.grid
    rw [hstep, ok_bind]
    by_cases hstop : ls2.stoppedStep.isSome
    · rw [if_pos hstop]
      exact ⟨ls2, rfl, hNeq, hperm2⟩
    · rw [if_neg hstop]
      obtain ⟨ls3, hrec, hN3, hperm3⟩ :=
        annealLoop_ok sched energyFn stopHash hT fuel (step + 1) ls2
          (by rw [hNeq]; exact hN) (by rw [hNeq]; exact hN5)
          (by rw [hNeq]; exact hperm2)
      exact ⟨ls3, hrec, by rw [hN3, hNeq],
        by rw [← hNeq]; exact hperm3⟩

/-- explore_anneal_local with a valid energy function, a permutation
initial grid, N odd and at least 5, and a nonnegative schedule never
raises; the returned final grid is a permutation and the final hash is the
canonical serialization of the final state. -/
theorem explore_anneal_local_ok (N steps : ℕ) (g : Rng)
    (sched : TempSchedule) (energy : EngineState → ℚ) (ig : List ℕ)
    (stopH : Option (List ℕ)) (ret : Bool) (hN : N % 2 = 1) (hN5 : 5 ≤ N)
    (hig : isPermGrid (N ^ 3) ig) (hT : ∀ t, 0 ≤ temperature sched t) :
    ∃ res, explore_anneal_local N steps g sched (some energy) (some ig)
        stopH ret = .ok res ∧
      isPermGrid (N ^ 3) res.final_grid ∧
      res.final_hash = (N :: res.final_grid).flatMap le32 := by
  have hbe : build_engine N = .ok (construct N) := by
    rw [build_engine, if_neg (by omega)]
  have haudS : auditE { N := (construct N).N, grid := ig, last_op_id := none, last_action := none } = .ok { N := (construct N).N, grid := ig, last_op_id := none, last_action := none } :=
    auditE_ok_none hN hig rfl
  unfold explore_anneal_local
  dsimp only
  rw [hbe]
  simp only [ok_bind]
  rw [if_neg (show ¬ ig.length ≠ N ^ 3 from fun hc => hc hig.1)]
  rw [haudS]
  simp only [ok_bind]
  by_cases hstop : stopH = some (hashB { N := (construct N).N, grid := ig, last_op_id := none, last_action := none })
  · rw [if_pos hstop, if_pos (rfl : (some 0 : Option ℕ) = some 0)]
    exact ⟨_, rfl, hig, rfl⟩
  · rw [if_neg hstop,
      if_neg (show ¬ ((none : Option ℕ) = some 0) by decide)]
    obtain ⟨ls2, hloop, hN2, hperm2⟩ := annealLoop_ok sched energy stopH hT
      steps 1
      { engine := { N := (construct N).N, grid := ig, last_op_id := none, last_action := none },
        rng := g,
        energies := [energy { N := (construct N).N, grid := ig, last_op_id := none, last_action := none }],
        bestE := energy { N := (construct N).N, grid := ig, last_op_id := none, last_action := none },
        bestStep := 0, lastImprove := 0, firstRepeat := none, repeats := 0,
        accepted := 0, proposed := 0,
        firstSeen := [(hashB { N := (construct N).N, grid := ig, last_op_id := none, last_action := none }, 0)],
        visitCounts := [(hashB { N := (construct N).N, grid := ig, last_op_id := none, last_action := none }, 1)],
        hashes := if ret then some [hashB { N := (construct N).N, grid := ig, last_op_id := none, last_action := none }] else none,
        stoppedStep := none }
      hN hN5 hig
    rw [hloop, ok_bind]
    refine ⟨_, rfl, ?_, ?_⟩
    · exact hperm2
    · show hashB ls2.engine = (N :: ls2.engine.grid).flatMap le32
      rw [show hashB ls2.engine
          = (ls2.engine.N :: ls2.engine.grid).flatMap le32 from rfl,
        show ls2.engine.N = N from hN2]

/-- When the stop hash is the canonical hash of the audited initial grid,
explore_anneal_local returns at once: the early-stop check fires at step 0
and the final state is the initial state. -/
theorem explore_stops_at_zero (N steps : ℕ) (g : Rng) (sched : TempSchedule)
    (energy : EngineState → ℚ) (ig : List ℕ) (ret : Bool)
    (hN : N % 2 = 1) (hN3 : 3 ≤ N) (hig : isPermGrid (N ^ 3) ig) :
    ∃ res, explore_anneal_local N steps g sched (some energy) (some ig)
        (some ((N :: ig).flatMap le32)) ret = .ok res ∧
      res.stopped_step = some 0 ∧ res.final_grid = ig ∧
      res.final_hash = (N :: ig).flatMap le32 := by
  have hbe : build_engine N = .ok (construct N) := by
    rw [build_engine, if_neg (by omega)]
  have haudS : auditE { N := (construct N).N, grid := ig, last_op_id := none, last_action := none } = .ok { N := (construct N).N, grid := ig, last_op_id := none, last_action := none } :=
    auditE_ok_none hN hig rfl
  unfold explore_anneal_local
  dsimp only
  rw [hbe]
  simp only [ok_bind]
  rw [if_neg (show ¬ ig.length ≠ N ^ 3 from fun hc => hc hig.1)]
  rw [haudS]
  simp only [ok_bind]
  rw [if_pos (show (some ((N :: ig).flatMap le32) : Option (List ℕ))
        = some (hashB { N := (construct N).N, grid := ig, last_op_id := none, last_action := none }) from rfl),
    if_pos (rfl : (some 0 : Option ℕ) = some 0)]
  exact ⟨_, rfl, rfl, rfl, rfl⟩

theorem perturb_zero (s : EngineState) (g : Rng) : perturb s 0 g = .ok s :=
  rfl

/-- One recovery trial with perturb_steps = 0 on N odd and at least 5 never
raises and reports recovered_same_hash = true: the zero-step perturbation
leaves the basin grid unchanged, so the second anneal stops at step 0. -/
theorem recoveryTrial_ok (N : ℕ) (seedStream : ℕ → Rng) (seed : ℕ)
    (init_seed : Option ℕ) (sched : TempSchedule) (anneal_steps t : ℕ)
    (hN : N % 2 = 1) (hN5 : 5 ≤ N) (hT : ∀ u, 0 ≤ temperature sched u) :
    ∃ tr, recoveryTrial N 0 seedStream seed init_seed sched anneal_steps t
        = .ok tr ∧ tr.recovered_same_hash = true := by
  have hbe : build_engine N = .ok (construct N) := by
    rw [build_engine, if_neg (by omega)]
  rcases init_seed with _ | s0
  · have hig2 : isPermGrid (N ^ 3) (construct N).grid :=
      isPermGrid_range (N ^ 3)
    unfold recoveryTrial
    dsimp only
    rw [hbe]
    simp only [ok_bind]
    obtain ⟨res1, h1, hperm1, hhash1⟩ := explore_anneal_local_ok N
      anneal_steps (seedStream (seed + 10000 + t)) sched default_energy
      (construct N).grid none false hN hN5 hig2 hT
    rw [h1]
    simp only [ok_bind]
    have haud2 : auditE { N := (construct N).N, grid := res1.final_grid, last_op_id := none, last_action := none }
        = .ok { N := (construct N).N, grid := res1.final_grid, last_op_id := none, last_action := none } :=
      auditE_ok_none hN hperm1 rfl
    rw [haud2]
    simp only [ok_bind]
    rw [perturb_zero]
    simp only [ok_bind]
    rw [hhash1]
    obtain ⟨res2, h2, hstop2, hgrid2, hhash2⟩ := explore_stops_at_zero N
      anneal_steps (seedStream (seed + 30000 + t)) sched default_energy
      res1.final_grid false hN (by omega) hperm1
    rw [h2]
    simp only [ok_bind]
    refine ⟨_, rfl, ?_⟩
    dsimp only
    rw [hstop2]
    rfl
  · have hig2 : isPermGrid (N ^ 3)
        (randomize (construct N) (seedStream (s0 + t))).grid :=
      randomize_preserves_perm (seedStream (s0 + t)) (isPermGrid_range (N ^ 3))
    unfold recoveryTrial
    dsimp only
    rw [hbe]
    simp only [ok_bind]
    obtain ⟨res1, h1, hperm1, hhash1⟩ := explore_anneal_local_ok N
      anneal_steps (seedStream (seed + 10000 + t)) sched default_energy
      (randomize (construct N) (seedStream (s0 + t))).grid none false
      hN hN5 hig2 hT
    rw [h1]
    simp only [ok_bind]
    have haud2 : auditE { N := (construct N).N, grid := res1.final_grid, last_op_id := none, last_action := none }
        = .ok { N := (construct N).N, grid := res1.final_grid, last_op_id := none, last_action := none } :=
      auditE_ok_none hN hperm1 rfl
    rw [haud2]
    simp only [ok_bind]
    rw [perturb_zero]
    simp only [ok_bind]
    rw [hhash1]
    obtain ⟨res2, h2, hstop2, hgrid2, hhash2⟩ := explore_stops_at_zero N
      anneal_steps (seedStream (seed + 30000 + t)) sched default_energy
      res1.final_grid false hN (by omega) hperm1
    rw [h2]
    simp only [ok_bind]
    refine ⟨_, rfl, ?_⟩
    dsimp only
    rw [hstop2]
    rfl

/-- The trial loop with perturb_steps = 0 never raises and extends the
accumulator with trials that all report recovered_same_hash = true. -/
theorem recoveryTrials_ok (N : ℕ) (seedStream : ℕ → Rng) (seed : ℕ)
    (init_seed : Option ℕ) (sched : TempSchedule) (anneal_steps : ℕ)
    (hN : N % 2 = 1) (hN5 : 5 ≤ N) (hT : ∀ u, 0 ≤ temperature sched u) :
    ∀ (n t : ℕ) (acc : List TrialRecord),
      (∀ tr ∈ acc, tr.recovered_same_hash = true) →
      ∃ lst, recoveryTrials N 0 seedStream seed init_seed sched anneal_steps
          n t acc = .ok lst ∧
        lst.length = acc.length + n ∧
        ∀ tr ∈ lst, tr.recovered_same_hash = true
  | 0, _, acc, hacc => ⟨acc, rfl, by simp, hacc⟩
  | n + 1, t, acc, hacc => by
    obtain ⟨tr, htr, hrec⟩ := recoveryTrial_ok N seedStream seed init_seed
      sched anneal_steps t hN hN5 hT
    show ∃ lst, (do
      let tr ← recoveryTrial N 0 seedStream seed init_seed sched
        anneal_steps t
      recoveryTrials N 0 seedStream seed init_seed sched anneal_steps n
        (t + 1) (acc ++ [tr])) = .ok lst ∧
      lst.length = acc.length + (n + 1) ∧
      ∀ tr ∈ lst, tr.recovered_same_hash = true
    rw [htr, ok_bind]
    obtain ⟨lst, hl, hlen, hall⟩ := recoveryTrials_ok N seedStream seed
      init_seed sched anneal_steps hN hN5 hT n (t + 1) (acc ++ [tr])
      (by
        intro tr2 htr2
        rcases List.mem_append.mp htr2 with hmem | hmem
        · exact hacc tr2 hmem
        · rw [List.mem_singleton.mp hmem]
          exact hrec)
    refine ⟨lst, hl, ?_, hall⟩
    rw [hlen, List.length_append]
    simp
    omega

/-- The exponential cooling schedule is nonnegative whenever its endpoints
are. -/
theorem exp_cooling_nonneg {T0 Tmin : ℝ} (h0 : 0 ≤ T0) (hm : 0 ≤ Tmin)
    (steps : ℕ) : ∀ step, 0 ≤ exp_cooling T0 Tmin steps step := by
  intro step
  unfold exp_cooling
  by_cases hs0 : step = 0
  · rw [if_pos hs0]
    exact h0
  · rw [if_neg hs0]
    by_cases hss : steps ≤ step
    · rw [if_pos hss]
      exact hm
    · rw [if_neg hss]
      refine mul_nonneg h0 (pow_nonneg ?_ step)
      by_cases hm0 : Tmin = 0
      · rw [if_pos hm0]
      · rw [if_neg hm0]
        by_cases ht0 : 0 < T0
        · rw [if_pos ht0]
          exact Real.rpow_nonneg (div_nonneg hm ht0.le) _
        · rw [if_neg ht0]

/-- C7 (amended to N at least 5): with perturb_steps = 0, N odd and at
least 5, and at least one trial, recovery_experiment never raises, every
trial reports recovered_same_hash = true, and the recovery rate is exactly
1: the zero-step perturbation leaves the basin grid unchanged, so the
re-anneal's initial hash equals the basin hash and the early stop fires at
step 0.  At N = 3 the statement fails for some seeds because the annealing
proposal loop itself can raise; see the counterexample. -/
theorem claim_recovery_rate_one (N trials : ℕ) (seedStream : ℕ → Rng)
    (seed : ℕ) (init_seed : Option ℕ) (hN : N % 2 = 1) (hN5 : 5 ≤ N)
    (htr : 1 ≤ trials) :
    ∃ res, recovery_experiment N trials 0 seedStream seed init_seed
        = .ok res ∧
      res.recovery_rate = 1 ∧ res.per_trial.length = trials ∧
      ∀ tr ∈ res.per_trial, tr.recovered_same_hash = true := by
  have hT : ∀ u, 0 ≤ temperature
      (TempSchedule.fn (exp_cooling 3 (1 / 20) 3000)) u :=
    fun u => exp_cooling_nonneg (by norm_num) (by norm_num) 3000 u
  unfold recovery_experiment
  rw [if_neg (by omega), if_neg (by omega)]
  dsimp only
  obtain ⟨per, hper, hlen, hall⟩ := recoveryTrials_ok N seedStream seed
    init_seed (TempSchedule.fn (exp_cooling 3 (1 / 20) 3000)) 3000
    hN hN5 hT trials 0 [] (by simp)
  have hlen2 : per.length = trials := by simpa using hlen
  rw [hper]
  simp only [ok_bind]
  refine ⟨_, rfl, ?_, hlen2, hall⟩
  dsimp only
  have hflagslen : (per.map fun tr => tr.recovered_same_hash).length
      = trials := by rw [List.length_map, hlen2]
  have hcount : (per.map fun tr => tr.recovered_same_hash).count true
      = (per.map fun tr => tr.recovered_same_hash).length := by
    refine List.count_eq_length.mpr ?_
    intro b hb
    obtain ⟨tr, htr2, rfl⟩ := List.mem_map.mp hb
    exact (hall tr htr2).symm
  rw [hcount, hflagslen]
  exact div_self (Nat.cast_ne_zero.mpr (by omega))

/-- Witness for the amended C7 at N = 5, one trial, a concrete stream. -/
theorem claim_recovery_rate_one_witness :
    ∃ res, recovery_experiment 5 1 0 (fun _ => fun _ => 0) 0 none
        = .ok res ∧
      res.recovery_rate = 1 ∧ res.per_trial.length = 1 ∧
      ∀ tr ∈ res.per_trial, tr.recovered_same_hash = true :=
  claim_recovery_rate_one 5 1 (fun _ => fun _ => 0) 0 none (by decide)
    (by decide) (by decide)

/-- Counterexample to C7 as stated: at N = 3 a seed family whose streams
constantly draw 1 makes the first annealing step pick radius 2, whose
center randint range [-1 + 2, 1 - 2] is empty, so recovery_experiment
raises ValueError even with perturb_steps = 0 (the claim asserts success
for every N odd and at least 3 and all seeds). -/
theorem claim_recovery_counterexample :
    recovery_experiment 3 1 0 (fun _ => fun _ => 1) 0 none
      = .error .invalidArgument := by
  rfl

/-- C8: the Metropolis acceptance rule of one explore_anneal_local step,
stated over the drawn move (op, center, radius), the proposed audited state
s2, and the drawn uniform value.  Writing dE for energyFn s2 minus the last
recorded energy and T for the schedule temperature at this step: a negative
T raises ValueError; when T is nonnegative and dE is nonpositive the move
is accepted, the engine becomes s2, the new energy is recorded and the
accept counter increments; when T is zero and dE is positive the move is
rejected: the grid is restored through inverse_local plus re-audit, the
previous energy is recorded unchanged and the accept counter is unchanged;
when T is positive and dE is positive the move is accepted exactly when the
uniform draw u (the probability-exp(-dE/T) Bernoulli test of the source) is
below exp(-dE/T), with the same accept and reject shapes. -/
theorem claim_metropolis_rule (sched : TempSchedule)
    (energyFn : EngineState → ℚ) (stopHash : Option (List ℕ)) (step : ℕ)
    (ls : AnnealState) (op : ℕ) (g1 : Rng) (center : Vec3) (radius : ℤ)
    (g2 : Rng) (s1 s2 : EngineState)
    (hN : ls.engine.N % 2 = 1)
    (hperm : isPermGrid (ls.engine.N ^ 3) ls.engine.grid)
    (hdraw1 : randrange ls.rng 24 = (op, g1))
    (hdraw2 : random_valid_local_params g1 (ls.engine.N / 2)
      = .ok ((center, radius), g2))
    (hprop : apply_local ls.engine op center radius = .ok s1)
    (haud : auditE s1 = .ok s2) :
    (temperature sched step < 0 →
      annealStep sched energyFn stopHash step ls
        = .error .invalidArgument) ∧
    (0 ≤ temperature sched step →
      energyFn s2 - ls.energies.getLastD 0 ≤ 0 →
      ∃ ls2, annealStep sched energyFn stopHash step ls = .ok ls2 ∧
        ls2.engine = s2 ∧
        ls2.energies = ls.energies ++ [energyFn s2] ∧
        ls2.accepted = ls.accepted + 1) ∧
    (temperature sched step = 0 →
      0 < energyFn s2 - ls.energies.getLastD 0 →
      ∃ ls2, annealStep sched energyFn stopHash step ls = .ok ls2 ∧
        ls2.engine.grid = ls.engine.grid ∧
        ls2.energies = ls.energies ++ [ls.energies.getLastD 0] ∧
        ls2.accepted = ls.accepted) ∧
    (0 < temperature sched step →
      0 < energyFn s2 - ls.energies.getLastD 0 →
      ((((randfloat g2).1 : ℚ) : ℝ) < Real.exp
          (-((energyFn s2 - ls.energies.getLastD 0 : ℚ) : ℝ) /
            temperature sched step) →
        ∃ ls2, annealStep sched energyFn stopHash step ls = .ok ls2 ∧
          ls2.engine = s2 ∧
          ls2.energies = ls.energies ++ [energyFn s2] ∧
          ls2.accepted = ls.accepted + 1) ∧
      (¬ (((randfloat g2).1 : ℚ) : ℝ) < Real.exp
          (-((energyFn s2 - ls.energies.getLastD 0 : ℚ) : ℝ) /
            temperature sched step) →
        ∃ ls2, annealStep sched energyFn stopHash step ls = .ok ls2 ∧
          ls2.engine.grid = ls.engine.grid ∧
          ls2.energies = ls.energies ++ [ls.energies.getLastD 0] ∧
          ls2.accepted = ls.accepted)) := by
  obtain ⟨hop, hr, hreg, hs1⟩ := apply_local_ok_inv hprop
  have hs2 := auditE_ok_inv haud
  subst hs2
  subst hs1
  refine ⟨?_, ?_, ?_, ?_⟩
  · intro hT
    unfold annealStep
    rw [hdraw1]
    dsimp only
    rw [hdraw2, ok_bind]
    dsimp only
    rw [hprop, ok_bind, haud, ok_bind]
    rw [if_pos hT]
  · intro hT hdE
    unfold annealStep
    rw [hdraw1]
    dsimp only
    rw [hdraw2, ok_bind]
    dsimp only
    rw [hprop, ok_bind, haud, ok_bind]
    rw [if_neg (not_lt.mpr hT), if_pos hdE]
    exact ⟨_, rfl, rfl, rfl, rfl⟩
  · intro hT0 hdE
    unfold annealStep
    rw [hdraw1]
    dsimp only
    rw [hdraw2, ok_bind]
    dsimp only
    rw [hprop, ok_bind, haud, ok_bind]
    rw [if_neg (show ¬ temperature sched step < 0 by rw [hT0]; exact lt_irrefl 0),
      if_neg (not_le.mpr hdE), if_pos hT0]
    obtain ⟨ls2, h1, h2, h3, h4, h5⟩ := annealReject_ok stopHash step g2
      (ls.energies.getLastD 0) (ls.proposed + 1) ls ls.engine op center
      radius hN hperm hop hr hreg
    exact ⟨ls2, h1, h2, h4, h5⟩
  · intro hT hdE
    constructor
    · intro hu
      unfold annealStep
      rw [hdraw1]
      dsimp only
      rw [hdraw2, ok_bind]
      dsimp only
      rw [hprop, ok_bind, haud, ok_bind]
      rw [if_neg (not_lt.mpr hT.le), if_neg (not_le.mpr hdE),
        if_neg (ne_of_gt hT), if_pos hu]
      exact ⟨_, rfl, rfl, rfl, rfl⟩
    · intro hu
      unfold annealStep
      rw [hdraw1]
      dsimp only
      rw [hdraw2, ok_bind]
      dsimp only
      rw [hprop, ok_bind, haud, ok_bind]
      rw [if_neg (not_lt.mpr hT.le), if_neg (not_le.mpr hdE),
        if_neg (ne_of_gt hT), if_neg hu]
      obtain ⟨ls2, h1, h2, h3, h4, h5⟩ := annealReject_ok stopHash step
        (randfloat g2).2 (ls.energies.getLastD 0) (ls.proposed + 1) ls
        ls.engine op center radius hN hperm hop hr hreg
      exact ⟨ls2, h1, h2, h4, h5⟩

/-- Concrete anneal state for exercising one annealing step: identity
engine at N = 5, an all-zeros draw stream, empty history. -/
def witnessAnnealState : AnnealState :=
  { engine := construct 5, rng := fun _ => 0, energies := [], bestE := 0,
    bestStep := 0, lastImprove := 0, firstRepeat := none, repeats := 0,
    accepted := 0, proposed := 0, firstSeen := [], visitCounts := [],
    hashes := none, stoppedStep := none }

/-- The audited proposal the all-zeros stream produces from
witnessAnnealState: op 0 at center (-1, -1, -1) with radius 1. -/
def witnessProposal : EngineState :=
  { (construct 5) with
    grid := applyLocalScatter (local_mapping 5 0 (-1, -1, -1) 1)
      (construct 5).grid,
    last_op_id := none, last_action := some (.loc 0 (-1, -1, -1) 1) }

/-- Witness for C8 at N = 5: the all-zeros stream draws op 0, center
(-1, -1, -1) and radius 1; with constant temperature 1 and the zero energy
function dE = 0, so the proposal is accepted, the new energy recorded and
the accept counter bumped. -/
theorem claim_metropolis_rule_witness :
    ∃ ls2, annealStep (.const 1) (fun _ => 0) none 0 witnessAnnealState
        = .ok ls2 ∧
      ls2.engine = witnessProposal ∧ ls2.energies = [0] ∧
      ls2.accepted = 1 := by
  have hperm2 : isPermGrid (witnessProposal.N ^ 3) witnessProposal.grid :=
    isPermGrid_applyLocalScatter (by decide) (by decide) (by decide)
      (by decide) (isPermGrid_range (5 ^ 3))
  have h := claim_metropolis_rule (.const 1) (fun _ => 0) none 0
    witnessAnnealState 0 (fun _ => 0) (-1, -1, -1) 1 (fun _ => 0)
    witnessProposal witnessProposal (by decide)
    (isPermGrid_range (5 ^ 3)) rfl rfl
    (apply_local_eq_ok (by decide) (by decide) (by decide))
    (auditE_ok_local (by decide) hperm2 (by decide) (by decide) (by decide)
      rfl)
  obtain ⟨ls2, h1, h2, h3, h4⟩ := h.2.1 (by norm_num [temperature])
    (by norm_num [witnessAnnealState])
  exact ⟨ls2, h1, h2, h3, h4⟩

end Livnium
